import Mathlib

/-!
Shallow embedding of the comparison engine of `document-compare-app`
(`src/core/helpers.py`, `src/core/comparators.py`, `src/core/report.py`).

Python strings are modelled as `List Char`; `dict` values as association
lists in insertion order; Python sets as lists used through membership.
-/

namespace DocCompare

/-- A Python string, modelled as its list of characters. -/
abbrev Str := List Char

/-- The set of characters for which Python `str.isspace()` is true; this is
also the character class matched by `\s` in Python `re` patterns over `str`
(Unicode whitespace). -/
def isPySpace (c : Char) : Bool :=
  c ∈ ([' ', '\t', '\n', '\x0b', '\x0c', '\r',
        '\x1c', '\x1d', '\x1e', '\x1f', '\x85', '\xa0',
        '\u1680', '\u2000', '\u2001', '\u2002', '\u2003', '\u2004',
        '\u2005', '\u2006', '\u2007', '\u2008', '\u2009', '\u200a',
        '\u2028', '\u2029', '\u202f', '\u205f', '\u3000'] : List Char)

/-- Python `s.strip()`: remove leading and trailing whitespace. -/
def pyStrip (s : Str) : Str :=
  (((s.dropWhile isPySpace).reverse).dropWhile isPySpace).reverse

/-- Helper for `pySplit`: accumulates the current word (reversed) while
scanning. -/
def pySplitAux : Str → Str → List Str
  | [], acc => if acc.isEmpty then [] else [acc.reverse]
  | c :: rest, acc =>
    if isPySpace c then
      if acc.isEmpty then pySplitAux rest []
      else acc.reverse :: pySplitAux rest []
    else pySplitAux rest (c :: acc)

/-- Python `s.split()` with no argument: split on runs of whitespace and
discard empty pieces. -/
def pySplit (s : Str) : List Str := pySplitAux s []

/-! Translation of `normalize_whitespace` (src/core/helpers.py, lines 14-21).

The Python function is the pipeline
`s.strip()` after `re.sub(r"\n\s+", "\n", re.sub(r"\s+\n", "\n",
re.sub(r"[ \t]+", " ", nfc(s) with U+00A0 replaced by a space)))`,
where `nfc` is `unicodedata.normalize("NFC", ·)`.  Unicode canonical
composition is the one library primitive not reimplemented here; it is kept
as an explicit function parameter, and the theorems that need facts about it
(idempotence, preservation of normalisation by whitespace edits) take them
as hypotheses. -/

/-- Action of the `s.replace` step on a single character: the non-breaking
space (U+00A0) becomes an ordinary space. -/
def nbspFix (c : Char) : Char := if c = '\xa0' then ' ' else c

/-- Python `s.replace` of U+00A0: non-breaking spaces become spaces. -/
def replaceNbsp (s : Str) : Str := s.map nbspFix

/-- The character class `[ \t]` of the first substitution. -/
def isST (c : Char) : Bool := c = ' ' || c = '\t'

/-- Scanner for `re.sub(r"[ \t]+", " ", s)`: the flag records whether the
scanner is inside a space/tab run whose single replacement space has
already been emitted. -/
def collapseSTAux : Bool → Str → Str
  | _, [] => []
  | inRun, c :: rest =>
    if isST c then
      if inRun then collapseSTAux true rest
      else ' ' :: collapseSTAux true rest
    else c :: collapseSTAux false rest

/-- Translation of `re.sub(r"[ \t]+", " ", s)`: each maximal run of spaces
and tabs is replaced by a single space. -/
def collapseST (s : Str) : Str := collapseSTAux false s

/-- Scanner applying `f` to each maximal whitespace run: `acc` accumulates
the current run in reverse. -/
def mapWsRunsAux (f : Str → Str) : Str → Str → Str
  | acc, [] => if acc.isEmpty then [] else f acc.reverse
  | acc, c :: rest =>
    if isPySpace c then mapWsRunsAux f (c :: acc) rest
    else (if acc.isEmpty then [] else f acc.reverse) ++ c :: mapWsRunsAux f [] rest

/-- Applies `f` to each maximal run of whitespace characters and keeps the
other characters unchanged.  Both whitespace substitutions of
`normalize_whitespace` only rewrite inside such runs (`\s+` cannot cross a
non-whitespace character), so they are translated through this scheme. -/
def mapWsRuns (f : Str → Str) (s : Str) : Str := mapWsRunsAux f [] s

/-- Action of `re.sub(r"\s+\n", "\n", ·)` on one maximal whitespace run:
the leftmost-greedy match inside the run spans from its start to its last
newline (a `\s+` cannot reach past a non-whitespace character), so
everything strictly before the last newline is deleted; a run without a
newline at position ≥ 1 has no match and is unchanged. -/
def subWsNlRun (r : Str) : Str :=
  if '\n' ∈ r then '\n' :: (r.reverse.takeWhile (fun c => c ≠ '\n')).reverse
  else r

/-- Translation of `re.sub(r"\s+\n", "\n", s)`. -/
def subWsNl (s : Str) : Str := mapWsRuns subWsNlRun s

/-- Action of `re.sub(r"\n\s+", "\n", ·)` on one maximal whitespace run:
the leftmost match starts at the first newline of the run and greedily
swallows the rest of the run, so everything strictly after the first
newline is deleted; a run without a newline is unchanged. -/
def subNlWsRun (r : Str) : Str :=
  if '\n' ∈ r then (r.takeWhile (fun c => c ≠ '\n')) ++ ['\n']
  else r

/-- Translation of `re.sub(r"\n\s+", "\n", s)`. -/
def subNlWs (s : Str) : Str := mapWsRuns subNlWsRun s

/-- The whitespace pipeline of `normalize_whitespace` after the NFC step. -/
def wsPipeline (s : Str) : Str :=
  pyStrip (subNlWs (subWsNl (collapseST (replaceNbsp s))))

/-- Translation of `normalize_whitespace` (src/core/helpers.py): NFC-normalise, replace
non-breaking spaces, collapse horizontal whitespace, drop whitespace next
to newlines, strip.  `nfc` is the Unicode canonical-composition primitive. -/
def normalize_whitespace (nfc : Str → Str) (s : Str) : Str :=
  wsPipeline (nfc s)

/-- Adjacency constraints satisfied by the output of the whitespace
pipeline: no two adjacent space/tab characters, no whitespace immediately
before a newline, none immediately after a newline. -/
def wsChainOk (c d : Char) : Prop :=
  ¬(isST c = true ∧ isST d = true) ∧
  ¬(isPySpace c = true ∧ d = '\n') ∧
  ¬(c = '\n' ∧ isPySpace d = true)

/-- Normal form reached by the whitespace pipeline: no tab, no non-breaking
space, the adjacency constraints hold throughout, and neither end carries
whitespace.  Strings in this form are fixed points of the pipeline. -/
def wsNormal (z : Str) : Prop :=
  '\t' ∉ z ∧ '\xa0' ∉ z ∧ z.Chain' wsChainOk ∧
  (∀ c, z.head? = some c → isPySpace c = false) ∧
  (∀ c, z.getLast? = some c → isPySpace c = false)

/-! Translation of `word_diff_pairs` (src/core/helpers.py, lines 55-75). -/

/-- Translation of `word_diff_pairs(text1, text2)`: compare two sentences word-by-word;
zip the two word lists positionally, then append the surplus words of the
longer list, each marked different. -/
def word_diff_pairs (text1 text2 : Str) : List (Str × Bool) :=
  let words1 := pySplit text1
  let words2 := pySplit text2
  let zipped := (words1.zip words2).map (fun p => (p.1, decide (p.1 ≠ p.2)))
  if words2.length < words1.length then
    zipped ++ (words1.drop words2.length).map (fun w => (w, true))
  else if words1.length < words2.length then
    zipped ++ (words2.drop words1.length).map (fun w => (w, true))
  else zipped

/-! Translation of `is_digits_only` (src/core/helpers.py, lines 43-49). -/

/-- Code-point ranges of the characters Python `str.isdigit()` accepts:
every character with Unicode property Numeric_Type = Decimal (the decimal
digits of each script, category Nd) or Numeric_Type = Digit (superscripts,
subscripts, circled digits and the other digit-valued characters, e.g.
U+00B2 SUPERSCRIPT TWO).  Enumerated from CPython's `unicodedata` tables
by evaluating `chr(c).isdigit()` over all code points. -/
def pyDigitRanges : List (Nat × Nat) :=
  [(0x30, 0x39), (0xB2, 0xB3), (0xB9, 0xB9), (0x660, 0x669), (0x6F0, 0x6F9),
   (0x7C0, 0x7C9), (0x966, 0x96F), (0x9E6, 0x9EF), (0xA66, 0xA6F),
   (0xAE6, 0xAEF), (0xB66, 0xB6F), (0xBE6, 0xBEF), (0xC66, 0xC6F),
   (0xCE6, 0xCEF), (0xD66, 0xD6F), (0xDE6, 0xDEF), (0xE50, 0xE59),
   (0xED0, 0xED9), (0xF20, 0xF29), (0x1040, 0x1049), (0x1090, 0x1099),
   (0x1369, 0x1371), (0x17E0, 0x17E9), (0x1810, 0x1819), (0x1946, 0x194F),
   (0x19D0, 0x19DA), (0x1A80, 0x1A89), (0x1A90, 0x1A99), (0x1B50, 0x1B59),
   (0x1BB0, 0x1BB9), (0x1C40, 0x1C49), (0x1C50, 0x1C59), (0x2070, 0x2070),
   (0x2074, 0x2079), (0x2080, 0x2089), (0x2460, 0x2468), (0x2474, 0x247C),
   (0x2488, 0x2490), (0x24EA, 0x24EA), (0x24F5, 0x24FD), (0x24FF, 0x24FF),
   (0x2776, 0x277E), (0x2780, 0x2788), (0x278A, 0x2792), (0xA620, 0xA629),
   (0xA8D0, 0xA8D9), (0xA900, 0xA909), (0xA9D0, 0xA9D9), (0xA9F0, 0xA9F9),
   (0xAA50, 0xAA59), (0xABF0, 0xABF9), (0xFF10, 0xFF19), (0x104A0, 0x104A9),
   (0x10A40, 0x10A43), (0x10D30, 0x10D39), (0x10E60, 0x10E68),
   (0x11052, 0x1105A), (0x11066, 0x1106F), (0x110F0, 0x110F9),
   (0x11136, 0x1113F), (0x111D0, 0x111D9), (0x112F0, 0x112F9),
   (0x11450, 0x11459), (0x114D0, 0x114D9), (0x11650, 0x11659),
   (0x116C0, 0x116C9), (0x11730, 0x11739), (0x118E0, 0x118E9),
   (0x11950, 0x11959), (0x11C50, 0x11C59), (0x11D50, 0x11D59),
   (0x11DA0, 0x11DA9), (0x16A60, 0x16A69), (0x16AC0, 0x16AC9),
   (0x16B50, 0x16B59), (0x1D7CE, 0x1D7FF), (0x1E140, 0x1E149),
   (0x1E2F0, 0x1E2F9), (0x1E950, 0x1E959), (0x1F100, 0x1F10A),
   (0x1FBF0, 0x1FBF9)]

/-- Python `str.isdigit` on one character: membership in one of the digit
code-point ranges.  Strictly wider than the decimal digits: it also
accepts, for instance, U+00B2 SUPERSCRIPT TWO. -/
def pyIsDigit (c : Char) : Bool :=
  pyDigitRanges.any (fun r => decide (r.1 ≤ c.toNat) && decide (c.toNat ≤ r.2))

/-- A decimal digit: one of the ten characters `0`-`9`.  This renders the
spec's phrase "consists solely of decimal digits"; note that the
counterexample character U+00B2 is not a decimal digit under any reading
(it is not in Unicode category Nd either), so claim C7 is refuted however
the phrase is read. -/
def isDecimalDigit (c : Char) : Bool := '0' ≤ c && c ≤ '9'

/-- The character class `[\s\.,:;()\[\]\-]` of `is_digits_only`. -/
def isNoisePunct (c : Char) : Bool :=
  isPySpace c || c ∈ (['.', ',', ':', ';', '(', ')', '[', ']', '-'] : List Char)

/-- Translation of `is_digits_only(s)` (called `is_numeric_noise` in the spec): strip the
string; an empty result is not digits-only; otherwise delete every
whitespace/punctuation character of the fixed class (`re.sub` with an empty
replacement deletes each occurrence) and test `cleaned.isdigit()`, which is
true iff the remainder is non-empty and all digits. -/
def is_digits_only (s : Str) : Bool :=
  let s' := pyStrip s
  if s'.isEmpty then false
  else
    let cleaned := s'.filter (fun c => !isNoisePunct c)
    !cleaned.isEmpty && cleaned.all pyIsDigit

/-- The test described by the spec's contract for `is_numeric_noise`:
after stripping whitespace and the fixed punctuation set from the text, the
remainder is non-empty and consists solely of decimal digits.  Stated from
the spec's words, to be compared with `is_digits_only`. -/
def isNumericNoiseSpec (s : Str) : Prop :=
  let remainder := s.filter (fun c => !isNoisePunct c)
  remainder ≠ [] ∧ ∀ c ∈ remainder, isDecimalDigit c = true

instance (s : Str) : Decidable (isNumericNoiseSpec s) := by
  unfold isNumericNoiseSpec; infer_instance

/-- The amended contract for `is_numeric_noise`: after stripping whitespace
and the fixed punctuation set, the remainder is non-empty and consists
solely of characters Python `str.isdigit()` accepts — the decimal digits of
any script together with the other Unicode digit characters (superscripts,
subscripts, circled digits, ...). -/
def isNumericNoiseAmended (s : Str) : Prop :=
  let remainder := s.filter (fun c => !isNoisePunct c)
  remainder ≠ [] ∧ ∀ c ∈ remainder, pyIsDigit c = true

instance (s : Str) : Decidable (isNumericNoiseAmended s) := by
  unfold isNumericNoiseAmended; infer_instance

/-! Translation of `LineDiff` and of `itertools.zip_longest`. -/

/-- The `LineDiff` dataclass (src/core/helpers.py, lines 81-85). -/
structure LineDiff where
  slide_no : Nat
  original : Str
  corrige : Str
deriving DecidableEq, Repr

/-- Translation of `itertools.zip_longest(as, bs, fillvalue=fill)` for two
lists: positional pairing, the exhausted side padded with `fill`. -/
def zipLongest (fill : α) : List α → List α → List (α × α)
  | [], bs => bs.map (fun b => (fill, b))
  | a :: as, [] => (a, fill) :: zipLongest fill as []
  | a :: as, b :: bs => (a, b) :: zipLongest fill as bs

/-! Translation of `difflib.SequenceMatcher(None, a, b)` (CPython), the
edit-script engine used by `compute_diffs_sequential`
(src/core/comparators.py) and `_words_to_html` (src/core/report.py).
With `isjunk=None` the junk set is empty; `autojunk` is on by default. -/

/-- Python `m.setdefault(k, []).append(i)` on an insertion-ordered dict. -/
def addIdx [DecidableEq α] : List (α × List Nat) → α → Nat → List (α × List Nat)
  | [], k, i => [(k, [i])]
  | (k', v) :: rest, k, i =>
    if k' = k then (k', v ++ [i]) :: rest else (k', v) :: addIdx rest k i

/-- Builds the mapping from an element to the increasing list of its
positions in `l` (the `b2j` loop of `__chain_b`, and also the `corr_map`
loop of `compute_diffs`). -/
def buildIdxMap [DecidableEq α] (l : List α) : List (α × List Nat) :=
  l.enum.foldl (fun m p => addIdx m p.2 p.1) []

/-- Dictionary lookup in an association list. -/
def lookupIdx [DecidableEq α] (m : List (α × List Nat)) (k : α) : Option (List Nat) :=
  (m.find? (fun p => decide (p.1 = k))).map (fun p => p.2)

/-- The `b2j` table of `SequenceMatcher.__chain_b`: positions of every
element of `b`; with `autojunk` on and `len(b) >= 200`, elements occurring
more than `len(b) // 100 + 1` times are popular and deleted from the
table. -/
def chainB [DecidableEq α] (b : List α) : List (α × List Nat) :=
  let m := buildIdxMap b
  if 200 ≤ b.length then
    m.filter (fun p => !(b.length / 100 + 1 < p.2.length))
  else m

/-- Lookup with default 0 in the `j2len` row dictionary. -/
def j2lenGet (m : List (Nat × Nat)) (j : Nat) : Nat :=
  (((m.find? (fun p => decide (p.1 = j))).map (fun p => p.2)).getD 0)

/-- The best block found by `find_longest_match`. -/
structure FLM where
  besti : Nat
  bestj : Nat
  size : Nat
deriving DecidableEq, Repr

/-- One iteration `i` of the outer loop of `find_longest_match`: scan the
positions `js` of `a[i]` in `b` (increasing, so Python's `continue` on
`j < blo` and `break` on `j >= bhi` amount to dropping the entries outside
`[blo, bhi)`), look each `j - 1` up in the previous row `j2len`, build the
new row, and update the best block when a strictly longer one appears
(Python's `-1` lookup index at `j = 0` is absent from the row, giving
length 1). -/
def flmRow (blo bhi i : Nat) (js : List Nat) (j2len : List (Nat × Nat))
    (best : FLM) : List (Nat × Nat) × FLM :=
  js.foldl
    (fun st j =>
      if j < blo || bhi ≤ j then st
      else
        let k := if j = 0 then 1 else j2lenGet j2len (j - 1) + 1
        let row := st.1 ++ [(j, k)]
        let best' := if st.2.size < k then FLM.mk (i + 1 - k) (j + 1 - k) k else st.2
        (row, best'))
    ([], best)

/-- The dynamic-programming part of `find_longest_match` over the window
`a[alo:ahi]`, `b[blo:bhi]`: fold the rows for `i = alo, ..., ahi - 1`. -/
def flmCore [DecidableEq α] [Inhabited α] (a : List α)
    (b2j : List (α × List Nat)) (alo ahi blo bhi : Nat) : FLM :=
  ((List.range' alo (ahi - alo)).foldl
    (fun st i =>
      let js := (lookupIdx b2j (a.getD i default)).getD []
      flmRow blo bhi i js st.1 st.2)
    ([], FLM.mk alo blo 0)).2

/-- First `while` loop after the DP in `find_longest_match`: with an empty
junk set, extend the block leftwards over equal adjacent elements.  The
first argument is a recursion budget: every iteration decrements `besti`,
which stays above `alo ≥ 0`, so a budget of `besti` itself is never
exhausted. -/
def extLeftAux [DecidableEq α] [Inhabited α] (a b : List α) (alo blo : Nat) :
    Nat → Nat → Nat → Nat → Nat × Nat × Nat
  | 0, besti, bestj, size => (besti, bestj, size)
  | fuel + 1, besti, bestj, size =>
    if alo < besti ∧ blo < bestj ∧
        a.getD (besti - 1) default = b.getD (bestj - 1) default then
      extLeftAux a b alo blo fuel (besti - 1) (bestj - 1) (size + 1)
    else (besti, bestj, size)

/-- Leftward extension of `find_longest_match`, with its budget. -/
def extLeft [DecidableEq α] [Inhabited α] (a b : List α)
    (alo blo besti bestj size : Nat) : Nat × Nat × Nat :=
  extLeftAux a b alo blo besti besti bestj size

/-- Second `while` loop: extend the block rightwards over equal adjacent
elements; every iteration increments `size` while `besti + size < ahi`, so
the budget `ahi - (besti + size)` is never exhausted.  The final junk-only
pair of `while` loops of the Python code never fires because the junk set
is empty with `isjunk=None`. -/
def extRightAux [DecidableEq α] [Inhabited α] (a b : List α) (ahi bhi besti bestj : Nat) :
    Nat → Nat → Nat
  | 0, size => size
  | fuel + 1, size =>
    if besti + size < ahi ∧ bestj + size < bhi ∧
        a.getD (besti + size) default = b.getD (bestj + size) default then
      extRightAux a b ahi bhi besti bestj fuel (size + 1)
    else size

/-- Rightward extension of `find_longest_match`, with its budget. -/
def extRight [DecidableEq α] [Inhabited α] (a b : List α)
    (ahi bhi besti bestj size : Nat) : Nat :=
  extRightAux a b ahi bhi besti bestj (ahi - (besti + size)) size

/-- `find_longest_match(alo, ahi, blo, bhi)`: DP sweep, then extension. -/
def find_longest_match [DecidableEq α] [Inhabited α] (a b : List α)
    (b2j : List (α × List Nat)) (alo ahi blo bhi : Nat) : FLM :=
  let base := flmCore a b2j alo ahi blo bhi
  let left := extLeft a b alo blo base.besti base.bestj base.size
  FLM.mk left.1 left.2.1 (extRight a b ahi bhi left.1 left.2.1 left.2.2)

/-- The recursive block collection of `get_matching_blocks`.  The Python
code keeps a LIFO queue of windows and sorts the collected blocks at the
end; the recursion below emits them directly in sorted order (every block
of the left window precedes the middle block, which precedes every block
of the right window).  `fuel` bounds the recursion depth: each recursive
call strictly shrinks `(ahi - alo) + (bhi - blo)`, so the initial budget
`a.length + b.length + 1` is never exhausted. -/
def matchingBlocksAux [DecidableEq α] [Inhabited α] (a b : List α)
    (b2j : List (α × List Nat)) :
    Nat → Nat → Nat → Nat → Nat → List (Nat × Nat × Nat)
  | 0, _, _, _, _ => []
  | fuel + 1, alo, ahi, blo, bhi =>
    let m := find_longest_match a b b2j alo ahi blo bhi
    if m.size = 0 then []
    else
      (if alo < m.besti ∧ blo < m.bestj then
        matchingBlocksAux a b b2j fuel alo m.besti blo m.bestj
      else []) ++
      (m.besti, m.bestj, m.size) ::
      (if m.besti + m.size < ahi ∧ m.bestj + m.size < bhi then
        matchingBlocksAux a b b2j fuel (m.besti + m.size) ahi (m.bestj + m.size) bhi
      else [])

/-- The merge loop at the end of `get_matching_blocks`: adjacent blocks
are fused, empty ones dropped (the running triple starts at `(0, 0, 0)`). -/
def mergeBlocksAux : Nat × Nat × Nat → List (Nat × Nat × Nat) → List (Nat × Nat × Nat)
  | (i1, j1, k1), [] => if k1 ≠ 0 then [(i1, j1, k1)] else []
  | (i1, j1, k1), (i2, j2, k2) :: rest =>
    if i1 + k1 = i2 ∧ j1 + k1 = j2 then mergeBlocksAux (i1, j1, k1 + k2) rest
    else if k1 ≠ 0 then (i1, j1, k1) :: mergeBlocksAux (i2, j2, k2) rest
    else mergeBlocksAux (i2, j2, k2) rest

/-- `SequenceMatcher.get_matching_blocks()`: recursive collection, merge of
adjacent blocks, and the terminal sentinel `(len(a), len(b), 0)`. -/
def get_matching_blocks [DecidableEq α] [Inhabited α] (a b : List α) :
    List (Nat × Nat × Nat) :=
  mergeBlocksAux (0, 0, 0)
    (matchingBlocksAux a b (chainB b) (a.length + b.length + 1) 0 a.length 0 b.length)
  ++ [(a.length, b.length, 0)]

/-- The four opcode tags of `get_opcodes`. -/
inductive Tag where
  | equal
  | replace
  | delete
  | insert
deriving DecidableEq, Repr

/-- One opcode `(tag, i1, i2, j1, j2)` of `get_opcodes`. -/
structure Opcode where
  tag : Tag
  i1 : Nat
  i2 : Nat
  j1 : Nat
  j2 : Nat
deriving DecidableEq, Repr

/-- `SequenceMatcher.get_opcodes()`: walk the matching blocks, emitting a
`replace`/`delete`/`insert` opcode for the gap before each block and an
`equal` opcode for the block itself. -/
def get_opcodes [DecidableEq α] [Inhabited α] (a b : List α) : List Opcode :=
  ((get_matching_blocks a b).foldl
    (fun st blk =>
      let i := st.1
      let j := st.2.1
      let answer := st.2.2
      let ai := blk.1
      let bj := blk.2.1
      let size := blk.2.2
      let answer :=
        if i < ai ∧ j < bj then answer ++ [Opcode.mk Tag.replace i ai j bj]
        else if i < ai then answer ++ [Opcode.mk Tag.delete i ai j bj]
        else if j < bj then answer ++ [Opcode.mk Tag.insert i ai j bj]
        else answer
      let answer :=
        if size ≠ 0 then
          answer ++ [Opcode.mk Tag.equal ai (ai + size) bj (bj + size)]
        else answer
      (ai + size, bj + size, answer))
    (0, 0, [])).2.2

/-! Translation of `compute_diffs` and `compute_diffs_sequential`
(src/core/comparators.py).  The slide dictionaries are modelled as
association lists with `dict.get(k, [])` lookup. -/

/-- Insertion step of an ascending insertion sort. -/
def insertAsc (k : Nat) : List Nat → List Nat
  | [] => [k]
  | x :: xs => if k ≤ x then k :: x :: xs else x :: insertAsc k xs

/-- Ascending sort (Python `sorted` on integers). -/
def sortAsc : List Nat → List Nat
  | [] => []
  | x :: xs => insertAsc x (sortAsc xs)

/-- Python `sorted(set(original.keys()) | set(corrige.keys()))`. -/
def allSlideKeys (o c : List (Nat × List Str)) : List Nat :=
  sortAsc ((o.map Prod.fst ++ c.map Prod.fst).dedup)

/-- Python `dict.get(k, [])` on the association-list model. -/
def dictGet (m : List (Nat × List Str)) (k : Nat) : List Str :=
  ((m.find? (fun p => decide (p.1 = k))).map (fun p => p.2)).getD []

/-- Replaces the bucket of key `k` (the in-place list mutation of the
source; the key is present whenever this is called). -/
def setIdx [DecidableEq α] : List (α × List Nat) → α → List Nat → List (α × List Nat)
  | [], k, v => [(k, v)]
  | (k', v') :: rest, k, v =>
    if k' = k then (k', v) :: rest else (k', v') :: setIdx rest k v

/-- First pass of `compute_diffs` over one slide: scan the normalised
original lines in order; for each, if its content has a bucket in the map,
pop already-matched indices from the bucket's head (the `while` of the
source), then consume the first remaining index, marking it matched.
Returns the `matched_orig` flags in order plus the final `matched_corr`
set. -/
def matchPass [DecidableEq α] :
    List α → List (α × List Nat) → List Nat → List Bool × List Nat
  | [], _, matched => ([], matched)
  | v :: vs, m, matched =>
    match lookupIdx m v with
    | none =>
      let r := matchPass vs m matched
      (false :: r.1, r.2)
    | some lst =>
      match lst.dropWhile (fun j => decide (j ∈ matched)) with
      | [] =>
        let r := matchPass vs (setIdx m v []) matched
        (false :: r.1, r.2)
      | j :: rest =>
        let r := matchPass vs (setIdx m v rest) (j :: matched)
        (true :: r.1, r.2)

/-- Body of `compute_diffs` for one slide: match identical content
position-independently, then pair the unmatched residues positionally
(`zip_longest` with empty fill) and keep the pairs whose normalised forms
differ. -/
def slideDiffs (nfc : Str → Str) (slide_no : Nat) (o c : List Str) : List LineDiff :=
  let orig_norms := o.map (normalize_whitespace nfc)
  let corr_norms := c.map (normalize_whitespace nfc)
  let r := matchPass orig_norms (buildIdxMap corr_norms) []
  let unmatched_o := (o.zip r.1).filterMap (fun p => if p.2 then none else some p.1)
  let unmatched_c := c.enum.filterMap (fun p => if p.1 ∈ r.2 then none else some p.2)
  (zipLongest [] unmatched_o unmatched_c).filterMap
    (fun p =>
      if normalize_whitespace nfc p.1 ≠ normalize_whitespace nfc p.2 then
        some (LineDiff.mk slide_no p.1 p.2)
      else none)

/-- Translation of `compute_diffs(original_lines, corrige_lines)`
(src/core/comparators.py, lines 12-53): per-slide order-independent
matching over the ascending union of the slide keys, then the final filter
dropping records whose two sides are both empty after `strip()`. -/
def compute_diffs (nfc : Str → Str)
    (original_lines corrige_lines : List (Nat × List Str)) : List LineDiff :=
  (((allSlideKeys original_lines corrige_lines).map
    (fun k => slideDiffs nfc k (dictGet original_lines k) (dictGet corrige_lines k))).flatten).filter
    (fun d => !(pyStrip d.original).isEmpty || !(pyStrip d.corrige).isEmpty)

/-- Python slice `l[i1:i2]` (for indices within bounds). -/
def pySlice (l : List α) (i1 i2 : Nat) : List α := (l.take i2).drop i1

/-- Translation of `compute_diffs_sequential(original, corrige)`
(src/core/comparators.py, lines 56-82): align the normalised sequences
with `SequenceMatcher` and emit a `LineDiff` per non-equal opcode line,
using the raw (non-normalised) text. -/
def compute_diffs_sequential (nfc : Str → Str)
    (original corrige : List Str) : List LineDiff :=
  let orig_norms := original.map (normalize_whitespace nfc)
  let corr_norms := corrige.map (normalize_whitespace nfc)
  ((get_opcodes orig_norms corr_norms).map
    (fun op =>
      match op.tag with
      | Tag.equal => []
      | Tag.replace =>
        (zipLongest [] (pySlice original op.i1 op.i2) (pySlice corrige op.j1 op.j2)).map
          (fun p => LineDiff.mk 0 p.1 p.2)
      | Tag.delete => (pySlice original op.i1 op.i2).map (fun a => LineDiff.mk 0 a [])
      | Tag.insert => (pySlice corrige op.j1 op.j2).map (fun b => LineDiff.mk 0 [] b))).flatten

/-! Translation of `_words_to_html` (src/core/report.py, lines 228-260),
the alignment-mode word-level highlighter used by the PDF report. -/

/-- The highlighted form of a differing word. -/
def highlightWord (w : Str) : Str :=
  ("<font backColor=\"#ffd54f\"><b>").data ++ w ++ ("</b></font>").data

/-- The `different_indices` set of `_words_to_html`: every word position of
`text` lying in a non-equal opcode range of the edit script computed with
`other` as the base (`a`) sequence and `text` as the annotated (`b`)
sequence. -/
def differentIndices (text other : Str) : List Nat :=
  (((get_opcodes (pySplit other) (pySplit text)).map
    (fun op => if op.tag = Tag.equal then [] else List.range' op.j1 (op.j2 - op.j1)))).flatten

/-- The parts list of `_words_to_html`: each word of `text` in order,
wrapped in the highlight markup exactly when its index is different. -/
def wordsToHtmlParts (text other : Str) : List Str :=
  (pySplit text).enum.map
    (fun p => if p.1 ∈ differentIndices text other then highlightWord p.2 else p.2)

/-- Python `" ".join(parts)`. -/
def joinSpace : List Str → Str
  | [] => []
  | [w] => w
  | w :: ws => w ++ ' ' :: joinSpace ws

/-- Translation of `_words_to_html(text, other)`: the italic placeholder
for empty text, otherwise the space-joined parts. -/
def wordsToHtml (text other : Str) : Str :=
  if text.isEmpty then ("<i>(empty)</i>").data
  else joinSpace (wordsToHtmlParts text other)

/-! Shared helper lemmas. -/

theorem map_fst_zip_take (l1 : List α) (l2 : List β) :
    (l1.zip l2).map Prod.fst = l1.take l2.length := by
  induction l1 generalizing l2 with
  | nil => simp
  | cons a as ih =>
    cases l2 with
    | nil => simp
    | cons b bs => simp [List.zip_cons_cons, ih]

theorem filter_dropWhile_of_imp (p q : Char → Bool)
    (hpq : ∀ c, p c = true → q c = false) (s : Str) :
    (s.dropWhile p).filter q = s.filter q := by
  induction s with
  | nil => rfl
  | cons c rest ih =>
    by_cases hc : p c = true
    · rw [List.dropWhile_cons_of_pos hc, ih, List.filter_cons_of_neg]
      simp [hpq c hc]
    · rw [List.dropWhile_cons_of_neg hc]

theorem filter_pyStrip (q : Char → Bool)
    (hq : ∀ c, isPySpace c = true → q c = false) (s : Str) :
    (pyStrip s).filter q = s.filter q := by
  unfold pyStrip
  rw [List.filter_reverse, filter_dropWhile_of_imp _ _ hq,
    List.filter_reverse, filter_dropWhile_of_imp _ _ hq, List.reverse_reverse]

/-! Claim theorems. -/

/-- C9: the engine operations `compute_diffs`, `compute_diffs_sequential`
and `word_diff_pairs` are total: every partial operation of the source
(bucket pops, indexing) is guarded exactly as in the code, so each
operation returns a result for every input, whatever the string content. -/
theorem c9_engine_total (nfc : Str → Str) (o c : List (Nat × List Str))
    (a b : List Str) (t u : Str) :
    ∃ r₁ r₂ r₃, compute_diffs nfc o c = r₁ ∧
      compute_diffs_sequential nfc a b = r₂ ∧ word_diff_pairs t u = r₃ :=
  ⟨_, _, _, rfl, rfl, rfl⟩

/-- C6: every `LineDiff` produced by `compute_diffs_sequential` carries
section key 0, and the insert-only example `original = ["A"]`,
`revised = ["A", "B"]` yields exactly one record, with empty original side
and revised side `"B"`. -/
theorem c6_sequential_slide_zero_and_insert_case :
    (∀ (nfc : Str → Str) (o c : List Str),
      ∀ d ∈ compute_diffs_sequential nfc o c, d.slide_no = 0) ∧
    compute_diffs_sequential id [['A']] [['A'], ['B']] = [LineDiff.mk 0 [] ['B']] := by
  constructor
  · intro nfc o c d hd
    unfold compute_diffs_sequential at hd
    simp only [List.mem_flatten, List.mem_map] at hd
    obtain ⟨l, ⟨op, _, rfl⟩, hdl⟩ := hd
    cases htag : op.tag <;> simp only [htag] at hdl
    · simp at hdl
    · obtain ⟨p, _, rfl⟩ := List.mem_map.mp hdl; rfl
    · obtain ⟨p, _, rfl⟩ := List.mem_map.mp hdl; rfl
    · obtain ⟨p, _, rfl⟩ := List.mem_map.mp hdl; rfl
  · decide

/-- C6 witness: the universal part applied to the concrete insert-only
example. -/
theorem c6_sequential_slide_zero_witness :
    (LineDiff.mk 0 [] ['B']).slide_no = 0 :=
  c6_sequential_slide_zero_and_insert_case.1 id [['A']] [['A'], ['B']]
    (LineDiff.mk 0 [] ['B']) (by decide)

/-- C7 counterexample: on the one-character string U+00B2 SUPERSCRIPT TWO
the code returns true — Python `str.isdigit()` accepts the character — yet
the remainder after deleting the punctuation class, namely that same
character, is not made of decimal digits, so the claimed characterisation
("non-empty and consists solely of decimal digits") is false of the
program. -/
theorem c7_is_digits_only_counterexample :
    is_digits_only [Char.ofNat 0xB2] = true ∧
    ¬ isNumericNoiseSpec [Char.ofNat 0xB2] := by
  decide

/-- C7 amended: `is_digits_only` returns true exactly when what remains of
the text after deleting whitespace and the fixed punctuation class is
non-empty and consists solely of characters Python `str.isdigit()`
accepts (the decimal digits of any script plus the other Unicode digit
characters such as superscripts), and the spec's six examples evaluate as
stated. -/
theorem c7_is_digits_only_iff :
    (∀ s : Str, is_digits_only s = true ↔ isNumericNoiseAmended s) ∧
    is_digits_only ("12").data = true ∧
    is_digits_only ("(3)").data = true ∧
    is_digits_only ("- 4 -").data = true ∧
    is_digits_only ("").data = false ∧
    is_digits_only ("12a").data = false ∧
    is_digits_only ("Slide 1").data = false := by
  refine ⟨?_, by decide, by decide, by decide, by decide, by decide, by decide⟩
  intro s
  have hws : ∀ c, isPySpace c = true → (!isNoisePunct c) = false := by
    intro c hc; simp [isNoisePunct, hc]
  have hfil := filter_pyStrip (fun c => !isNoisePunct c) hws s
  by_cases hemp : pyStrip s = []
  · have hnil : s.filter (fun c => !isNoisePunct c) = [] := by rw [← hfil, hemp]; rfl
    simp [is_digits_only, isNumericNoiseAmended, hemp, hnil]
  · simp [is_digits_only, isNumericNoiseAmended, hfil, hemp, List.isEmpty_iff,
      List.all_eq_true]
    intro _ _ _
    constructor
    · intro h c hc hpc
      rcases h c hc with h1 | h1
      · rw [h1] at hpc; cases hpc
      · exact h1
    · intro h x hx
      by_cases hp : isNoisePunct x = true
      · exact Or.inl hp
      · exact Or.inr (h x hx (by simpa using hp))

/-- C7 witness: the amended characterisation instantiated at a concrete
input. -/
theorem c7_is_digits_only_iff_witness :
    is_digits_only (("- 4 -").data) = true ↔ isNumericNoiseAmended (("- 4 -").data) :=
  c7_is_digits_only_iff.1 (("- 4 -").data)

/-- C2 counterexample: for empty `text` and `other = "hello"`,
`word_diff_pairs` returns the pair list `[("hello", true)]`, which is not
empty and whose word is not a word of `text`: the output is not made of
the words of `text` alone. -/
theorem c2_word_diff_pairs_counterexample :
    word_diff_pairs [] ("hello").data = [(("hello").data, true)] ∧
    word_diff_pairs [] ("hello").data ≠ [] := by
  exact ⟨by decide, by decide⟩

/-- C2 amended: the word components of `word_diff_pairs text other` are
the words of `text` when `other` has at most as many words; when `other`
has more words, they are the words of `text` followed by the surplus words
of `other` (each marked differing); in particular an empty `text` yields
one pair per word of `other`, every pair marked differing — not the empty
sequence. -/
theorem c2_word_diff_pairs_amended (text other : Str) :
    ((word_diff_pairs text other).map Prod.fst =
      if (pySplit other).length ≤ (pySplit text).length then pySplit text
      else pySplit text ++ (pySplit other).drop (pySplit text).length) ∧
    word_diff_pairs [] other = (pySplit other).map (fun w => (w, true)) := by
  have hz : ∀ w1 w2 : List Str,
      ((w1.zip w2).map (fun p => (p.1, decide (p.1 ≠ p.2)))).map Prod.fst =
        w1.take w2.length := by
    intro w1 w2; rw [List.map_map]; exact map_fst_zip_take w1 w2
  have hm : ∀ l : List Str, (l.map (fun w => (w, true))).map Prod.fst = l := by
    intro l; rw [List.map_map]; exact List.map_id l
  constructor
  · unfold word_diff_pairs
    rcases Nat.lt_trichotomy (pySplit other).length (pySplit text).length with h | h | h
    · rw [if_pos h, if_pos (Nat.le_of_lt h), List.map_append, hz, hm,
        List.take_append_drop]
    · rw [if_neg (by omega), if_neg (by omega), if_pos (by omega), hz, h,
        List.take_length]
    · rw [if_neg (by omega), if_pos h, if_neg (by omega), List.map_append, hz, hm,
        List.take_of_length_le (Nat.le_of_lt h)]
  · unfold word_diff_pairs
    have hsplit : pySplit ([] : Str) = [] := rfl
    cases ho : pySplit other with
    | nil => simp [hsplit, ho]
    | cons w ws => simp [hsplit, ho]

/-- C1 counterexample: the sequential matcher has no blank-blank filter; a
deleted whitespace-only line yields a record whose two sides are both
empty after trimming, so the invariant does not cover both matchers. -/
theorem c1_blank_counterexample :
    ∃ d ∈ compute_diffs_sequential id [[' ']] [],
      pyStrip d.original = [] ∧ pyStrip d.corrige = [] :=
  ⟨LineDiff.mk 0 [' '] [], by decide, by decide, by decide⟩

/-- C1 amended: the no-blank-blank invariant holds for the section-keyed
matcher `compute_diffs`, whose final filter drops any record with both
sides empty after `strip()`; the sequential matcher lacks this filter. -/
theorem c1_compute_diffs_no_blank (nfc : Str → Str)
    (o c : List (Nat × List Str)) :
    ∀ d ∈ compute_diffs nfc o c,
      pyStrip d.original ≠ [] ∨ pyStrip d.corrige ≠ [] := by
  intro d hd
  unfold compute_diffs at hd
  have h := (List.mem_filter.mp hd).2
  simpa [List.isEmpty_iff] using h

/-- C1 witness: the amended invariant at a concrete one-slide input. -/
theorem c1_compute_diffs_no_blank_witness :
    pyStrip ['a'] ≠ [] ∨ pyStrip ([] : Str) ≠ [] :=
  c1_compute_diffs_no_blank id [(1, [['a']])] [] (LineDiff.mk 1 ['a'] []) (by decide)

/-- C10: positional shape of `word_diff_pairs`: the output length is the
larger of the two word counts; up to the shorter count, entry `k` pairs
word `k` of `text1` with the flag `word1 ≠ word2`; beyond it, the surplus
words of the longer side appear in order, each flagged differing. -/
theorem c10_word_diff_pairs_shape (t1 t2 : Str) (k : Nat) :
    (word_diff_pairs t1 t2).length =
      max (pySplit t1).length (pySplit t2).length ∧
    (∀ w1 w2, (pySplit t1)[k]? = some w1 → (pySplit t2)[k]? = some w2 →
      (word_diff_pairs t1 t2)[k]? = some (w1, decide (w1 ≠ w2))) ∧
    ((pySplit t2).length ≤ k → ∀ w1, (pySplit t1)[k]? = some w1 →
      (word_diff_pairs t1 t2)[k]? = some (w1, true)) ∧
    ((pySplit t1).length ≤ k → ∀ w2, (pySplit t2)[k]? = some w2 →
      (word_diff_pairs t1 t2)[k]? = some (w2, true)) := by
  have hlen1 : ∀ w : Str, (pySplit t1)[k]? = some w → k < (pySplit t1).length := by
    intro w hw; exact (List.getElem?_eq_some.mp hw).1
  have hlen2 : ∀ w : Str, (pySplit t2)[k]? = some w → k < (pySplit t2).length := by
    intro w hw; exact (List.getElem?_eq_some.mp hw).1
  unfold word_diff_pairs
  rcases Nat.lt_trichotomy (pySplit t2).length (pySplit t1).length with h | h | h
  · rw [if_pos h]
    refine ⟨by simp [List.length_zip]; omega, ?_, ?_, ?_⟩
    · intro w1 w2 h1 h2
      rw [List.getElem?_append_left
        (by simp [List.length_zip]; exact ⟨hlen1 w1 h1, hlen2 w2 h2⟩)]
      have hz : ((pySplit t1).zip (pySplit t2))[k]? = some (w1, w2) :=
        List.getElem?_zip_eq_some.mpr ⟨h1, h2⟩
      simp [hz]
    · intro hk w1 h1
      rw [List.getElem?_append_right (by simp [List.length_zip]; omega)]
      have : k - min (pySplit t1).length (pySplit t2).length =
          k - (pySplit t2).length := by omega
      simp [List.length_zip, this, List.getElem?_drop,
        Nat.add_sub_cancel' hk, h1]
    · intro hk w2 h2
      have := hlen2 w2 h2; omega
  · rw [if_neg (by omega), if_neg (by omega)]
    refine ⟨by simp [List.length_zip]; omega, ?_, ?_, ?_⟩
    · intro w1 w2 h1 h2
      have hz : ((pySplit t1).zip (pySplit t2))[k]? = some (w1, w2) :=
        List.getElem?_zip_eq_some.mpr ⟨h1, h2⟩
      simp [hz]
    · intro hk w1 h1
      have := hlen1 w1 h1; omega
    · intro hk w2 h2
      have := hlen2 w2 h2; omega
  · rw [if_neg (by omega), if_pos h]
    refine ⟨by simp [List.length_zip]; omega, ?_, ?_, ?_⟩
    · intro w1 w2 h1 h2
      rw [List.getElem?_append_left
        (by simp [List.length_zip]; exact ⟨hlen1 w1 h1, hlen2 w2 h2⟩)]
      have hz : ((pySplit t1).zip (pySplit t2))[k]? = some (w1, w2) :=
        List.getElem?_zip_eq_some.mpr ⟨h1, h2⟩
      simp [hz]
    · intro hk w1 h1
      have := hlen1 w1 h1; omega
    · intro hk w2 h2
      rw [List.getElem?_append_right (by simp [List.length_zip]; omega)]
      have : k - min (pySplit t1).length (pySplit t2).length =
          k - (pySplit t1).length := by omega
      simp [List.length_zip, this, List.getElem?_drop,
        Nat.add_sub_cancel' hk, h2]

/-- C10 witness: the shape facts applied to `"a bb c"` versus `"a x"`. -/
theorem c10_word_diff_pairs_shape_witness :
    (word_diff_pairs ("a bb c").data ("a x").data)[2]? =
      some (("c").data, true) :=
  (c10_word_diff_pairs_shape ("a bb c").data ("a x").data 2).2.2.1
    (by decide) ("c").data (by decide)

theorem mem_differentIndices (text other : Str) (idx : Nat) :
    idx ∈ differentIndices text other ↔
      ∃ op ∈ get_opcodes (pySplit other) (pySplit text),
        op.tag ≠ Tag.equal ∧ op.j1 ≤ idx ∧ idx < op.j2 := by
  unfold differentIndices
  simp only [List.mem_flatten, List.mem_map]
  constructor
  · rintro ⟨l, ⟨op, hop, rfl⟩, hidx⟩
    by_cases htag : op.tag = Tag.equal
    · rw [if_pos htag] at hidx; cases hidx
    · rw [if_neg htag] at hidx
      obtain ⟨i, hi, rfl⟩ := List.mem_range'.mp hidx
      exact ⟨op, hop, htag, by omega, by omega⟩
  · rintro ⟨op, hop, htag, h1, h2⟩
    refine ⟨_, ⟨op, hop, rfl⟩, ?_⟩
    rw [if_neg htag]
    exact List.mem_range'.mpr ⟨idx - op.j1, by omega, by omega⟩

theorem highlightWord_ne (w : Str) : highlightWord w ≠ w := by
  intro h
  have := congrArg List.length h
  simp [highlightWord] at this
  omega

/-- C5: in alignment mode, word `idx` of `text` is rendered highlighted
exactly when `idx` lies inside a non-equal opcode range of the edit script
computed with `other` as the base sequence and `text` as the annotated
sequence; and for `other = "the fox jumps"`, `text = "the quick fox
jumps"`, exactly the word `"quick"` (position 1) is highlighted —
`"jumps"` is not. -/
theorem c5_alignment_mode :
    (∀ (text other : Str) (idx : Nat) (w : Str),
      (pySplit text)[idx]? = some w →
      ((wordsToHtmlParts text other)[idx]? = some (highlightWord w) ↔
        ∃ op ∈ get_opcodes (pySplit other) (pySplit text),
          op.tag ≠ Tag.equal ∧ op.j1 ≤ idx ∧ idx < op.j2)) ∧
    wordsToHtmlParts ("the quick fox jumps").data ("the fox jumps").data =
      [("the").data, highlightWord (("quick").data), ("fox").data,
        ("jumps").data] := by
  constructor
  · intro text other idx w hw
    unfold wordsToHtmlParts
    rw [← mem_differentIndices text other idx]
    rw [List.getElem?_map]
    have henum : (pySplit text).enum[idx]? = some (idx, w) := by
      simp [List.enum, List.getElem?_enumFrom, hw]
    rw [henum, Option.map_some', Option.some_inj]
    by_cases hmem : idx ∈ differentIndices text other
    · simp [hmem]
    · rw [if_neg hmem]
      simp only [hmem, iff_false]
      intro hcontra
      exact highlightWord_ne w hcontra.symm
  · decide

/-- C5 witness: the general highlighting law applied at position 1 of the
concrete report example. -/
theorem c5_alignment_mode_witness :
    (wordsToHtmlParts ("the quick fox jumps").data
        ("the fox jumps").data)[1]? =
        some (highlightWord (("quick").data)) ↔
      ∃ op ∈ get_opcodes (pySplit ("the fox jumps").data)
          (pySplit ("the quick fox jumps").data),
        op.tag ≠ Tag.equal ∧ op.j1 ≤ 1 ∧ 1 < op.j2 :=
  c5_alignment_mode.1 ("the quick fox jumps").data ("the fox jumps").data 1
    (("quick").data) (by decide)

theorem mem_insertAsc {k x : Nat} {l : List Nat} :
    x ∈ insertAsc k l ↔ x = k ∨ x ∈ l := by
  induction l with
  | nil => simp [insertAsc]
  | cons a as ih =>
    unfold insertAsc
    by_cases h : k ≤ a
    · rw [if_pos h]; simp
    · rw [if_neg h]; simp [ih]; tauto

theorem insertAsc_pairwise {k : Nat} {l : List Nat}
    (hl : l.Pairwise (· ≤ ·)) : (insertAsc k l).Pairwise (· ≤ ·) := by
  induction l with
  | nil => simp [insertAsc]
  | cons a as ih =>
    unfold insertAsc
    obtain ⟨ha, has⟩ := List.pairwise_cons.mp hl
    by_cases h : k ≤ a
    · rw [if_pos h]
      refine List.pairwise_cons.mpr ⟨?_, hl⟩
      intro y hy
      rcases List.mem_cons.mp hy with rfl | hy'
      · exact h
      · exact Nat.le_trans h (ha y hy')
    · rw [if_neg h]
      refine List.pairwise_cons.mpr ⟨?_, ih has⟩
      intro y hy
      rcases mem_insertAsc.mp hy with rfl | hy'
      · omega
      · exact ha y hy'

theorem sortAsc_pairwise (l : List Nat) : (sortAsc l).Pairwise (· ≤ ·) := by
  induction l with
  | nil => exact List.Pairwise.nil
  | cons a as ih => exact insertAsc_pairwise ih

theorem slideDiffs_slide_no (nfc : Str → Str) (k : Nat) (o c : List Str) :
    ∀ d ∈ slideDiffs nfc k o c, d.slide_no = k := by
  intro d hd
  unfold slideDiffs at hd
  obtain ⟨p, _, hp⟩ := List.mem_filterMap.mp hd
  by_cases hne : normalize_whitespace nfc p.1 ≠ normalize_whitespace nfc p.2
  · rw [if_pos hne] at hp
    cases hp
    rfl
  · rw [if_neg hne] at hp
    cases hp

/-- C8: the list returned by `compute_diffs` is ordered by non-decreasing
section key: a record never precedes one with a smaller key. -/
theorem c8_compute_diffs_sorted (nfc : Str → Str)
    (o c : List (Nat × List Str)) :
    (compute_diffs nfc o c).Pairwise (fun d e => d.slide_no ≤ e.slide_no) := by
  unfold compute_diffs
  apply List.Pairwise.filter
  rw [List.pairwise_flatten]
  constructor
  · intro l hl
    obtain ⟨k, _, rfl⟩ := List.mem_map.mp hl
    apply List.pairwise_of_forall_mem_list
    intro d hd e he
    rw [slideDiffs_slide_no nfc k _ _ d hd, slideDiffs_slide_no nfc k _ _ e he]
  · rw [List.pairwise_map]
    apply List.Pairwise.imp ?_ (sortAsc_pairwise _)
    intro k k' hkk d hd e he
    rw [slideDiffs_slide_no nfc k _ _ d hd, slideDiffs_slide_no nfc k' _ _ e he]
    exact hkk

theorem lookupIdx_cons [DecidableEq α] (k' : α) (v : List Nat)
    (rest : List (α × List Nat)) (k : α) :
    lookupIdx ((k', v) :: rest) k = if k' = k then some v else lookupIdx rest k := by
  by_cases h : k' = k
  · rw [if_pos h]
    unfold lookupIdx
    rw [List.find?_cons_of_pos _ (by simp [h])]
    rfl
  · rw [if_neg h]
    unfold lookupIdx
    rw [List.find?_cons_of_neg _ (by simp [h])]

theorem lookupIdx_addIdx_self [DecidableEq α] (m : List (α × List Nat))
    (k : α) (i : Nat) :
    lookupIdx (addIdx m k i) k = some ((lookupIdx m k).getD [] ++ [i]) := by
  induction m with
  | nil => simp [addIdx, lookupIdx]
  | cons p rest ih =>
    obtain ⟨k', v⟩ := p
    by_cases h : k' = k
    · simp [addIdx, if_pos h, lookupIdx_cons, h]
    · simp only [addIdx, if_neg h, lookupIdx_cons, ih]

theorem lookupIdx_addIdx_ne [DecidableEq α] (m : List (α × List Nat))
    {k k' : α} (i : Nat) (h : k' ≠ k) :
    lookupIdx (addIdx m k i) k' = lookupIdx m k' := by
  induction m with
  | nil => simp [addIdx, lookupIdx, Ne.symm h]
  | cons p rest ih =>
    obtain ⟨k'', v⟩ := p
    by_cases h2 : k'' = k
    · simp [addIdx, if_pos h2, lookupIdx_cons, h2, Ne.symm h]
    · simp only [addIdx, if_neg h2, lookupIdx_cons, ih]

theorem lookupIdx_setIdx_self [DecidableEq α] (m : List (α × List Nat))
    (k : α) (v : List Nat) :
    lookupIdx (setIdx m k v) k = some v := by
  induction m with
  | nil => simp [setIdx, lookupIdx]
  | cons p rest ih =>
    obtain ⟨k', w⟩ := p
    by_cases h : k' = k
    · simp [setIdx, if_pos h, lookupIdx_cons, h]
    · simp only [setIdx, if_neg h, lookupIdx_cons, ih]

theorem lookupIdx_setIdx_ne [DecidableEq α] (m : List (α × List Nat))
    {k k' : α} (v : List Nat) (h : k' ≠ k) :
    lookupIdx (setIdx m k v) k' = lookupIdx m k' := by
  induction m with
  | nil => simp [setIdx, lookupIdx, Ne.symm h]
  | cons p rest ih =>
    obtain ⟨k'', w⟩ := p
    by_cases h2 : k'' = k
    · simp [setIdx, if_pos h2, lookupIdx_cons, h2, Ne.symm h]
    · simp only [setIdx, if_neg h2, lookupIdx_cons, ih]

theorem foldl_addIdx_bucket [DecidableEq α] (ps : List (Nat × α))
    (m : List (α × List Nat)) (v : α) :
    (lookupIdx (ps.foldl (fun acc p => addIdx acc p.2 p.1) m) v).getD [] =
      (lookupIdx m v).getD [] ++
        ps.filterMap (fun p => if p.2 = v then some p.1 else none) := by
  induction ps generalizing m with
  | nil => simp
  | cons p ps ih =>
    rw [List.foldl_cons, ih]
    by_cases h : p.2 = v
    · subst h
      rw [lookupIdx_addIdx_self]
      simp [List.filterMap_cons, List.append_assoc]
    · rw [lookupIdx_addIdx_ne _ _ (Ne.symm h)]
      simp [List.filterMap_cons, h]

theorem enumFrom_indices_facts [DecidableEq α] (l : List α) (v : α) :
    ∀ n : Nat,
      (∀ j ∈ (l.enumFrom n).filterMap
        (fun p => if p.2 = v then some p.1 else none), n ≤ j ∧ j < n + l.length) ∧
      ((l.enumFrom n).filterMap
        (fun p => if p.2 = v then some p.1 else none)).Nodup ∧
      ((l.enumFrom n).filterMap
        (fun p => if p.2 = v then some p.1 else none)).length = l.count v := by
  induction l with
  | nil => intro n; simp
  | cons x xs ih =>
    intro n
    rw [List.enumFrom_cons]
    obtain ⟨hb, hn, hl⟩ := ih (n + 1)
    by_cases h : x = v
    · subst h
      simp only [List.filterMap_cons, if_pos rfl]
      refine ⟨?_, ?_, ?_⟩
      · intro j hj
        rcases List.mem_cons.mp hj with rfl | hj'
        · simp only [List.length_cons]
          omega
        · have := hb j hj'
          simp only [List.length_cons]
          omega
      · exact List.nodup_cons.mpr ⟨fun hc => by have := hb n hc; omega, hn⟩
      · simp [hl, List.count_cons]
    · simp only [List.filterMap_cons, if_neg h]
      refine ⟨?_, hn, ?_⟩
      · intro j hj
        have := hb j hj
        simp only [List.length_cons]
        omega
      · rw [hl, List.count_cons, if_neg (by simpa using h)]
        omega

theorem enumFrom_indices_get [DecidableEq α] (l : List α) (v : α) (n : Nat) :
    ∀ j ∈ (l.enumFrom n).filterMap (fun p => if p.2 = v then some p.1 else none),
      l[j - n]? = some v := by
  intro j hj
  obtain ⟨p, hp, hpj⟩ := List.mem_filterMap.mp hj
  by_cases h : p.2 = v
  · rw [if_pos h] at hpj
    cases hpj
    obtain ⟨q, w⟩ := p
    simp only at h
    subst h
    have := List.mk_mem_enumFrom_iff_le_and_getElem?_sub.mp hp
    exact this.2
  · rw [if_neg h] at hpj
    cases hpj

theorem buildIdxMap_bucket [DecidableEq α] (l : List α) (v : α) :
    (lookupIdx (buildIdxMap l) v).getD [] =
      l.enum.filterMap (fun p => if p.2 = v then some p.1 else none) := by
  unfold buildIdxMap
  rw [foldl_addIdx_bucket]
  simp [lookupIdx]

/-- Core of C3: when every value still to be scanned has at least as many
available bucket entries as remaining occurrences, the first pass matches
every original line, and each match consumes one fresh in-range revised
index. -/
theorem matchPass_all_matched [DecidableEq α] (N : Nat) :
    ∀ (vs : List α) (m : List (α × List Nat)) (matched : List Nat),
    (∀ v lst, lookupIdx m v = some lst →
      lst.Nodup ∧ ∀ j ∈ lst, j < N ∧ j ∉ matched ∧
        ∀ v' lst', lookupIdx m v' = some lst' → j ∈ lst' → v' = v) →
    (∀ v, vs.count v ≤ ((lookupIdx m v).getD []).length) →
    matched.Nodup →
    (∀ j ∈ matched, j < N) →
    (matchPass vs m matched).1 = List.replicate vs.length true ∧
    (matchPass vs m matched).2.Nodup ∧
    (matchPass vs m matched).2.length = matched.length + vs.length ∧
    (∀ j ∈ (matchPass vs m matched).2, j < N) := by
  intro vs
  induction vs with
  | nil =>
    intro m matched _ _ hmn hml
    exact ⟨rfl, hmn, rfl, hml⟩
  | cons v vs ih =>
    intro m matched hbuck hcount hmn hml
    have hvcount : 1 ≤ ((lookupIdx m v).getD []).length := by
      have := hcount v
      rw [List.count_cons_self] at this
      omega
    obtain ⟨lst, hlst⟩ : ∃ lst, lookupIdx m v = some lst := by
      cases hlk : lookupIdx m v with
      | none => rw [hlk] at hvcount; simp at hvcount
      | some lst => exact ⟨lst, rfl⟩
    obtain ⟨j, rest, rfl⟩ : ∃ j rest, lst = j :: rest := by
      cases lst with
      | nil => rw [hlst] at hvcount; simp at hvcount
      | cons j rest => exact ⟨j, rest, rfl⟩
    obtain ⟨hnd, hjs⟩ := hbuck v (j :: rest) hlst
    obtain ⟨hjN, hjm, hjcross⟩ := hjs j (by simp)
    have hdrop : (j :: rest).dropWhile (fun j' => decide (j' ∈ matched)) =
        j :: rest :=
      List.dropWhile_cons_of_neg (by simpa using hjm)
    have hstep : matchPass (v :: vs) m matched =
        (true :: (matchPass vs (setIdx m v rest) (j :: matched)).1,
          (matchPass vs (setIdx m v rest) (j :: matched)).2) := by
      simp only [matchPass, hlst, hdrop]
    have hbuck' : ∀ v' lst', lookupIdx (setIdx m v rest) v' = some lst' →
        lst'.Nodup ∧ ∀ j' ∈ lst', j' < N ∧ j' ∉ (j :: matched) ∧
          ∀ v'' lst'', lookupIdx (setIdx m v rest) v'' = some lst'' →
            j' ∈ lst'' → v'' = v' := by
      intro v' lst' hlk'
      by_cases hv' : v' = v
      · subst hv'
        rw [lookupIdx_setIdx_self] at hlk'
        cases hlk'
        refine ⟨(List.nodup_cons.mp hnd).2, ?_⟩
        intro j' hj'
        obtain ⟨hj'N, hj'm, hj'cross⟩ := hjs j' (by simp [hj'])
        refine ⟨hj'N, ?_, ?_⟩
        · simp only [List.mem_cons, not_or]
          exact ⟨fun hc => (List.nodup_cons.mp hnd).1 (hc ▸ hj'), hj'm⟩
        · intro v'' lst'' hlk'' hj''
          by_cases hv'' : v'' = v'
          · exact hv''
          · rw [lookupIdx_setIdx_ne _ _ hv''] at hlk''
            exact hj'cross v'' lst'' hlk'' hj''
      · rw [lookupIdx_setIdx_ne _ _ hv'] at hlk'
        obtain ⟨hnd', hjs'⟩ := hbuck v' lst' hlk'
        refine ⟨hnd', ?_⟩
        intro j' hj'
        obtain ⟨hj'N, hj'm, hj'cross⟩ := hjs' j' hj'
        refine ⟨hj'N, ?_, ?_⟩
        · simp only [List.mem_cons, not_or]
          refine ⟨?_, hj'm⟩
          intro hc
          subst hc
          exact hv' (hjcross v' lst' hlk' hj')
        · intro v'' lst'' hlk'' hj''
          by_cases hv'' : v'' = v
          · subst hv''
            rw [lookupIdx_setIdx_self] at hlk''
            cases hlk''
            exact absurd (hj'cross v'' (j :: rest) hlst (by simp [hj''])).symm hv'
          · rw [lookupIdx_setIdx_ne _ _ hv''] at hlk''
            exact hj'cross v'' lst'' hlk'' hj''
    have hcount' : ∀ v', vs.count v' ≤
        ((lookupIdx (setIdx m v rest) v').getD []).length := by
      intro v'
      by_cases hv' : v' = v
      · subst hv'
        rw [lookupIdx_setIdx_self]
        have := hcount v'
        rw [List.count_cons_self, hlst] at this
        simpa using Nat.le_of_succ_le_succ this
      · rw [lookupIdx_setIdx_ne _ _ hv']
        have := hcount v'
        rw [List.count_cons_of_ne hv'] at this
        exact this
    have hmn' : (j :: matched).Nodup := List.nodup_cons.mpr ⟨hjm, hmn⟩
    have hml' : ∀ j' ∈ (j :: matched), j' < N := by
      intro j' hj'
      rcases List.mem_cons.mp hj' with rfl | hj''
      · exact hjN
      · exact hml j' hj''
    obtain ⟨ihf, ihn, ihl, ihb⟩ := ih (setIdx m v rest) (j :: matched)
      hbuck' hcount' hmn' hml'
    rw [hstep]
    refine ⟨?_, ihn, ?_, ihb⟩
    · simp [ihf, List.replicate_succ]
    · simp only [ihl, List.length_cons]
      omega

theorem mem_of_nodup_length_bound {l : List Nat} {N : Nat}
    (hnd : l.Nodup) (hlen : l.length = N) (hlt : ∀ j ∈ l, j < N) :
    ∀ i < N, i ∈ l := by
  intro i hi
  have hsub : l.toFinset ⊆ Finset.range N := by
    intro x hx
    exact Finset.mem_range.mpr (hlt x (List.mem_toFinset.mp hx))
  have hcard : (Finset.range N).card ≤ l.toFinset.card := by
    rw [List.toFinset_card_of_nodup hnd, hlen, Finset.card_range]
  have heq : l.toFinset = Finset.range N :=
    Finset.eq_of_subset_of_card_le hsub hcard
  have : i ∈ l.toFinset := heq ▸ Finset.mem_range.mpr hi
  exact List.mem_toFinset.mp this

/-- Core of C3, assembled: when the normalised revised lines are a
permutation of the normalised original lines, the per-slide matcher emits
nothing. -/
theorem slideDiffs_eq_nil_of_perm (nfc : Str → Str) (k : Nat) (o c : List Str)
    (hperm : (c.map (normalize_whitespace nfc)).Perm
      (o.map (normalize_whitespace nfc))) :
    slideDiffs nfc k o c = [] := by
  set vs := o.map (normalize_whitespace nfc) with hvs
  set cs := c.map (normalize_whitespace nfc) with hcs
  have hbucket : ∀ v, (lookupIdx (buildIdxMap cs) v).getD [] =
      cs.enum.filterMap (fun p => if p.2 = v then some p.1 else none) :=
    fun v => buildIdxMap_bucket cs v
  have hfacts := fun v => enumFrom_indices_facts cs v 0
  have hget := fun v => enumFrom_indices_get cs v 0
  obtain ⟨hflags, hnodup, hlen, hbound⟩ :=
    matchPass_all_matched cs.length vs (buildIdxMap cs) []
      (by
        intro v lst hlk
        have hlst : lst = cs.enum.filterMap
            (fun p => if p.2 = v then some p.1 else none) := by
          have := hbucket v
          rw [hlk] at this
          simpa using this
        obtain ⟨hb, hn, _⟩ := hfacts v
        subst hlst
        refine ⟨hn, ?_⟩
        intro j hj
        refine ⟨by have := hb j hj; simpa using this.2, by simp, ?_⟩
        intro v' lst' hlk' hj'
        have hlst' : lst' = cs.enum.filterMap
            (fun p => if p.2 = v' then some p.1 else none) := by
          have := hbucket v'
          rw [hlk'] at this
          simpa using this
        subst hlst'
        have h1 : cs[j]? = some v' := by simpa using hget v' j hj'
        have h2 : cs[j]? = some v := by simpa using hget v j hj
        rw [h1] at h2
        exact Option.some_inj.mp h2
      )
      (by
        intro v
        rw [hbucket v, show cs.enum = cs.enumFrom 0 from rfl, (hfacts v).2.2]
        exact Nat.le_of_eq (hperm.count_eq v).symm
      )
      List.nodup_nil
      (by intro j hj; cases hj)
  have hlenoc : vs.length = o.length := List.length_map o _
  have hlencs : cs.length = c.length := List.length_map c _
  have hlenvs : cs.length = vs.length := hperm.length_eq
  unfold slideDiffs
  rw [← hvs, ← hcs]
  have huo : (o.zip (matchPass vs (buildIdxMap cs) []).1).filterMap
      (fun p => if p.2 then none else some p.1) = [] := by
    rw [List.filterMap_eq_nil_iff]
    intro p hp
    have hp2 := (List.of_mem_zip hp).2
    rw [hflags] at hp2
    rw [List.eq_of_mem_replicate hp2]
    rfl
  have huc : (c.enum.filterMap
      (fun p => if p.1 ∈ (matchPass vs (buildIdxMap cs) []).2
        then none else some p.2)) = [] := by
    rw [List.filterMap_eq_nil_iff]
    intro p hp
    have hplt : p.1 < c.length := by
      have := List.mk_mem_enumFrom_iff_le_and_getElem?_sub.mp
        (by simpa using hp)
      have h2 := this.2
      simp only [Nat.sub_zero] at h2
      exact (List.getElem?_eq_some.mp h2).1
    have hmem : p.1 ∈ (matchPass vs (buildIdxMap cs) []).2 := by
      apply mem_of_nodup_length_bound hnodup ?_ hbound p.1 ?_
      · rw [hlen]
        simp only [List.length_nil, Nat.zero_add]
        omega
      · omega
    rw [if_pos hmem]
  simp only [huo, huc]
  rfl

/-- C3: when the revised side's line list for a section key is a
permutation of the original side's line list for that key — the same lines
as a multiset of normalised content, possibly reordered — `compute_diffs`
emits zero records carrying that key. -/
theorem c3_permutation_section_no_diffs (nfc : Str → Str)
    (o c : List (Nat × List Str)) (k : Nat)
    (hperm : ((dictGet c k).map (normalize_whitespace nfc)).Perm
      ((dictGet o k).map (normalize_whitespace nfc))) :
    (compute_diffs nfc o c).filter (fun d => decide (d.slide_no = k)) = [] := by
  rw [List.filter_eq_nil_iff]
  intro d hd
  simp only [decide_eq_true_eq]
  intro hdk
  unfold compute_diffs at hd
  have hd1 := (List.mem_filter.mp hd).1
  obtain ⟨l, hl, hdl⟩ := List.mem_flatten.mp hd1
  obtain ⟨k', _, rfl⟩ := List.mem_map.mp hl
  have hk'd := slideDiffs_slide_no nfc k' _ _ d hdl
  have hkk : k' = k := by rw [← hk'd, hdk]
  subst hkk
  rw [slideDiffs_eq_nil_of_perm nfc k' _ _ hperm] at hdl
  cases hdl

/-- C3 witness: the section-keyed matcher on the spec's reordering
example. -/
theorem c3_permutation_section_no_diffs_witness :
    (compute_diffs id [(1, [("Hello").data, ("World").data])]
        [(1, [("World").data, ("Hello").data])]).filter
      (fun d => decide (d.slide_no = 1)) = [] :=
  c3_permutation_section_no_diffs id
    [(1, [("Hello").data, ("World").data])]
    [(1, [("World").data, ("Hello").data])] 1 (by decide)

theorem mapWsRunsAux_spec (f : Str → Str) :
    ∀ (s acc : Str),
      mapWsRunsAux f acc s =
        (if (acc.reverse ++ s.takeWhile isPySpace).isEmpty then []
          else f (acc.reverse ++ s.takeWhile isPySpace)) ++
        (match s.dropWhile isPySpace with
          | [] => []
          | c :: rest => c :: mapWsRunsAux f [] rest) := by
  intro s
  induction s with
  | nil =>
    intro acc
    simp [mapWsRunsAux, List.isEmpty_iff]
  | cons c rest ih =>
    intro acc
    by_cases hc : isPySpace c
    · rw [show mapWsRunsAux f acc (c :: rest) = mapWsRunsAux f (c :: acc) rest
        from by simp [mapWsRunsAux, hc]]
      rw [ih (c :: acc), List.takeWhile_cons_of_pos hc,
        List.dropWhile_cons_of_pos hc]
      simp [List.append_assoc]
    · rw [show mapWsRunsAux f acc (c :: rest) =
        (if acc.isEmpty then [] else f acc.reverse) ++ c :: mapWsRunsAux f [] rest
        from by simp [mapWsRunsAux, hc]]
      rw [List.takeWhile_cons_of_neg hc, List.dropWhile_cons_of_neg hc]
      simp [List.isEmpty_iff]

theorem mapWsRuns_nil (f : Str → Str) : mapWsRuns f [] = [] := rfl

theorem mapWsRuns_cons_not_ws (f : Str → Str) (c : Char) (rest : Str)
    (hc : ¬isPySpace c = true) :
    mapWsRuns f (c :: rest) = c :: mapWsRuns f rest := by
  unfold mapWsRuns
  rw [mapWsRunsAux_spec f (c :: rest) [], List.takeWhile_cons_of_neg hc,
    List.dropWhile_cons_of_neg hc]
  rfl

theorem mapWsRuns_cons_ws (f : Str → Str) (c : Char) (rest : Str)
    (hc : isPySpace c = true) :
    mapWsRuns f (c :: rest) =
      f (c :: rest.takeWhile isPySpace) ++
        mapWsRuns f (rest.dropWhile isPySpace) := by
  unfold mapWsRuns
  rw [mapWsRunsAux_spec f (c :: rest) [], List.takeWhile_cons_of_pos hc,
    List.dropWhile_cons_of_pos hc]
  have h1 : (([] : Str).reverse ++ c :: rest.takeWhile isPySpace).isEmpty = false := by
    simp
  rw [h1]
  simp only [List.reverse_nil, List.nil_append, if_false]
  congr 1
  cases hdw : rest.dropWhile isPySpace with
  | nil => rfl
  | cons d ds =>
    have hd : ¬isPySpace d = true := by
      have := List.head?_dropWhile_not isPySpace rest
      rw [hdw] at this
      simp at this
      simp [this]
    simp [mapWsRunsAux, hd]

theorem isPySpace_of_isST {c : Char} (h : isST c = true) : isPySpace c = true := by
  rcases Bool.or_eq_true _ _ |>.mp h with h1 | h1
  · rw [decide_eq_true_eq] at h1
    subst h1
    rfl
  · rw [decide_eq_true_eq] at h1
    subst h1
    rfl

theorem wsChainOk_of_left {c d : Char} (h : isPySpace c = false) : wsChainOk c d := by
  refine ⟨?_, ?_, ?_⟩
  · rintro ⟨h1, _⟩
    rw [isPySpace_of_isST h1] at h
    cases h
  · rintro ⟨h1, _⟩
    rw [h1] at h
    cases h
  · rintro ⟨h1, _⟩
    subst h1
    cases h

theorem wsChainOk_of_right {c d : Char} (h : isPySpace d = false) : wsChainOk c d := by
  refine ⟨?_, ?_, ?_⟩
  · rintro ⟨_, h1⟩
    rw [isPySpace_of_isST h1] at h
    cases h
  · rintro ⟨_, h1⟩
    subst h1
    cases h
  · rintro ⟨_, h1⟩
    rw [h1] at h
    cases h

theorem replaceNbsp_fixpoint (z : Str) (h : '\xa0' ∉ z) : replaceNbsp z = z := by
  unfold replaceNbsp
  induction z with
  | nil => rfl
  | cons c rest ih =>
    simp only [List.map_cons]
    rw [show nbspFix c = c from by
      unfold nbspFix
      rw [if_neg]
      intro hc
      exact h (hc ▸ List.mem_cons_self c rest)]
    rw [ih (fun hm => h (List.mem_cons_of_mem c hm))]

theorem collapseSTAux_true_head :
    ∀ (z : Str) (c : Char), (collapseSTAux true z).head? = some c → isST c = false := by
  intro z
  induction z with
  | nil => intro c hc; cases hc
  | cons d rest ih =>
    intro c hc
    by_cases hd : isST d
    · rw [show collapseSTAux true (d :: rest) = collapseSTAux true rest from by
        simp [collapseSTAux, hd]] at hc
      exact ih c hc
    · rw [show collapseSTAux true (d :: rest) = d :: collapseSTAux false rest from by
        simp [collapseSTAux, hd]] at hc
      cases hc
      simpa using hd

theorem collapseSTAux_fixpoint :
    ∀ (z : Str), '\t' ∉ z →
      z.Chain' (fun c d => ¬(isST c = true ∧ isST d = true)) →
      ∀ b : Bool, (b = true → ∀ c, z.head? = some c → isST c = false) →
      collapseSTAux b z = z := by
  intro z
  induction z with
  | nil => intro _ _ b _; rfl
  | cons c rest ih =>
    intro htab hch b hb
    have htab' : '\t' ∉ rest := fun hm => htab (List.mem_cons_of_mem c hm)
    by_cases hc : isST c
    · cases b with
      | true =>
        have := hb rfl c rfl
        rw [this] at hc
        cases hc
      | false =>
        have hcsp : c = ' ' := by
          rcases Bool.or_eq_true _ _ |>.mp hc with h1 | h1
          · exact decide_eq_true_eq.mp h1
          · exact absurd ((decide_eq_true_eq.mp h1) ▸ List.mem_cons_self c rest)
              htab
        rw [show collapseSTAux false (c :: rest) = ' ' :: collapseSTAux true rest
          from by simp [collapseSTAux, hc]]
        rw [ih htab' (List.Chain'.tail hch) true ?_, hcsp]
        intro _ d hd
        cases rest with
        | nil => cases hd
        | cons e t =>
          cases hd
          have := List.chain'_cons.mp hch |>.1
          by_cases he : isST d
          · exact absurd ⟨hc, he⟩ this
          · simpa using he
    · rw [show collapseSTAux b (c :: rest) = c :: collapseSTAux false rest
        from by simp [collapseSTAux, hc]]
      rw [ih htab' (List.Chain'.tail hch) false (by intro h; cases h)]

theorem collapseST_fixpoint (z : Str) (htab : '\t' ∉ z)
    (hch : z.Chain' (fun c d => ¬(isST c = true ∧ isST d = true))) :
    collapseST z = z :=
  collapseSTAux_fixpoint z htab hch false (by intro h; cases h)

theorem newline_run_singleton :
    ∀ r : Str, (∀ c ∈ r, isPySpace c = true) → r.Chain' wsChainOk →
      '\n' ∈ r → r = ['\n'] := by
  intro r
  induction r with
  | nil => intro _ _ h; cases h
  | cons c t ih =>
    intro hws hch hn
    cases t with
    | nil =>
      rcases List.mem_singleton.mp hn with rfl
      rfl
    | cons d t' =>
      obtain ⟨hcd, hch'⟩ := List.chain'_cons.mp hch
      by_cases hc : c = '\n'
      · exact absurd ⟨hc, hws d (by simp)⟩ hcd.2.2
      · have hn' : '\n' ∈ d :: t' := by
          rcases List.mem_cons.mp hn with h1 | h1
          · exact absurd h1.symm hc
          · exact h1
        have heq := ih (fun x hx => hws x (List.mem_cons_of_mem c hx)) hch' hn'
        have hd : d = '\n' := by
          have := congrArg List.head? heq
          simpa using this
        exact absurd ⟨hws c (by simp), hd⟩ hcd.2.1

theorem subWsNlRun_fixpoint (r : Str) (hws : ∀ c ∈ r, isPySpace c = true)
    (hch : r.Chain' wsChainOk) : subWsNlRun r = r := by
  unfold subWsNlRun
  by_cases h : '\n' ∈ r
  · rw [if_pos h, newline_run_singleton r hws hch h]
    rfl
  · rw [if_neg h]

theorem subNlWsRun_fixpoint (r : Str) (hws : ∀ c ∈ r, isPySpace c = true)
    (hch : r.Chain' wsChainOk) : subNlWsRun r = r := by
  unfold subNlWsRun
  by_cases h : '\n' ∈ r
  · rw [if_pos h, newline_run_singleton r hws hch h]
    rfl
  · rw [if_neg h]

theorem mapWsRuns_fixpoint (f : Str → Str)
    (hf : ∀ r : Str, (∀ c ∈ r, isPySpace c = true) → r.Chain' wsChainOk → f r = r) :
    ∀ z : Str, z.Chain' wsChainOk → mapWsRuns f z = z := by
  suffices h : ∀ (n : Nat) (z : Str), z.length ≤ n → z.Chain' wsChainOk →
      mapWsRuns f z = z by
    intro z hz
    exact h z.length z (Nat.le_refl _) hz
  intro n
  induction n with
  | zero =>
    intro z hlen _
    rw [List.length_eq_zero.mp (Nat.le_zero.mp hlen)]
    rfl
  | succ n ih =>
    intro z hlen hch
    cases z with
    | nil => rfl
    | cons c rest =>
      by_cases hc : isPySpace c
      · rw [mapWsRuns_cons_ws f c rest hc]
        have hrun : f (c :: rest.takeWhile isPySpace) =
            c :: rest.takeWhile isPySpace := by
          apply hf
          · intro x hx
            rcases List.mem_cons.mp hx with rfl | hx'
            · exact hc
            · exact List.mem_takeWhile_imp hx'
          · rw [show c :: rest.takeWhile isPySpace =
              (c :: rest).takeWhile isPySpace from
              (List.takeWhile_cons_of_pos hc).symm]
            exact List.Chain'.prefix hch ( List.takeWhile_prefix isPySpace)
        rw [hrun]
        rw [ih (rest.dropWhile isPySpace)
          (by
            have h1 : (rest.dropWhile isPySpace).length ≤ rest.length :=
              (List.dropWhile_sublist isPySpace).length_le
            have h2 : rest.length ≤ n := by
              simpa using Nat.le_of_succ_le_succ hlen
            omega)
          (List.Chain'.suffix hch
            (List.IsSuffix.trans (List.dropWhile_suffix isPySpace)
              (List.suffix_cons c rest)))]
        rw [List.cons_append, List.takeWhile_append_dropWhile]
      · rw [mapWsRuns_cons_not_ws f c rest hc]
        rw [ih rest (by simpa using Nat.le_of_succ_le_succ hlen)
          (List.Chain'.tail hch)]

theorem dropWhile_eq_self_of_head (p : Char → Bool) (l : Str)
    (h : ∀ c, l.head? = some c → p c = false) : l.dropWhile p = l := by
  cases l with
  | nil => rfl
  | cons c rest =>
    rw [List.dropWhile_cons_of_neg]
    simp [h c rfl]

theorem pyStrip_fixpoint (z : Str)
    (h1 : ∀ c, z.head? = some c → isPySpace c = false)
    (h2 : ∀ c, z.getLast? = some c → isPySpace c = false) : pyStrip z = z := by
  unfold pyStrip
  rw [dropWhile_eq_self_of_head _ _ h1,
    dropWhile_eq_self_of_head _ _ (by
      intro c hc
      rw [List.head?_reverse] at hc
      exact h2 c hc),
    List.reverse_reverse]

theorem wsPipeline_fixpoint (z : Str) (h : wsNormal z) : wsPipeline z = z := by
  obtain ⟨htab, hnbsp, hch, hhead, hlast⟩ := h
  unfold wsPipeline subNlWs subWsNl
  rw [replaceNbsp_fixpoint z hnbsp,
    collapseST_fixpoint z htab (List.Chain'.imp (fun a b hr => hr.1) hch),
    mapWsRuns_fixpoint subWsNlRun subWsNlRun_fixpoint z hch,
    mapWsRuns_fixpoint subNlWsRun subNlWsRun_fixpoint z hch,
    pyStrip_fixpoint z hhead hlast]

theorem takeWhile_append_all (p : Char → Bool) (a b : Str)
    (ha : ∀ c ∈ a, p c = true) (hb : ∀ c, b.head? = some c → p c = false) :
    (a ++ b).takeWhile p = a ∧ (a ++ b).dropWhile p = b := by
  induction a with
  | nil =>
    simp only [List.nil_append]
    cases b with
    | nil => exact ⟨rfl, rfl⟩
    | cons c rest =>
      have hc : ¬p c = true := by simp [hb c rfl]
      exact ⟨List.takeWhile_cons_of_neg hc, List.dropWhile_cons_of_neg hc⟩
  | cons x xs ih =>
    obtain ⟨h1, h2⟩ := ih (fun c hc => ha c (List.mem_cons_of_mem x hc))
    have hx : p x = true := ha x (List.mem_cons_self x xs)
    rw [List.cons_append]
    exact ⟨by rw [List.takeWhile_cons_of_pos hx, h1],
      by rw [List.dropWhile_cons_of_pos hx, h2]⟩

theorem mapWsRuns_head_not_ws (g : Str → Str) (z : Str)
    (hz : ∀ c, z.head? = some c → isPySpace c = false) :
    ∀ c, (mapWsRuns g z).head? = some c → isPySpace c = false := by
  cases z with
  | nil => intro c hc; cases hc
  | cons d rest =>
    have hd : isPySpace d = false := hz d rfl
    rw [mapWsRuns_cons_not_ws g d rest (by simp [hd])]
    intro c hc
    cases hc
    exact hd

theorem mapWsRuns_ws_append (f : Str → Str) (a b : Str) (hne : a ≠ [])
    (ha : ∀ c ∈ a, isPySpace c = true)
    (hb : ∀ c, b.head? = some c → isPySpace c = false) :
    mapWsRuns f (a ++ b) = f a ++ mapWsRuns f b := by
  cases a with
  | nil => cases hne rfl
  | cons c a' =>
    rw [List.cons_append, mapWsRuns_cons_ws f c (a' ++ b)
      (ha c (List.mem_cons_self c a'))]
    obtain ⟨h1, h2⟩ := takeWhile_append_all isPySpace a' b
      (fun x hx => ha x (List.mem_cons_of_mem c hx)) hb
    rw [h1, h2]

theorem mapWsRuns_comp (f g : Str → Str)
    (hg : ∀ r : Str, r ≠ [] → (∀ c ∈ r, isPySpace c = true) →
      g r ≠ [] ∧ ∀ c ∈ g r, isPySpace c = true) :
    ∀ z : Str, mapWsRuns f (mapWsRuns g z) = mapWsRuns (fun r => f (g r)) z := by
  suffices h : ∀ (n : Nat) (z : Str), z.length ≤ n →
      mapWsRuns f (mapWsRuns g z) = mapWsRuns (fun r => f (g r)) z by
    intro z
    exact h z.length z (Nat.le_refl _)
  intro n
  induction n with
  | zero =>
    intro z hlen
    rw [List.length_eq_zero.mp (Nat.le_zero.mp hlen)]
    rfl
  | succ n ih =>
    intro z hlen
    cases z with
    | nil => rfl
    | cons c rest =>
      by_cases hc : isPySpace c
      · rw [mapWsRuns_cons_ws g c rest hc,
          mapWsRuns_cons_ws (fun r => f (g r)) c rest hc]
        have hrun : (c :: rest.takeWhile isPySpace) ≠ [] := by simp
        have hrunws : ∀ x ∈ c :: rest.takeWhile isPySpace, isPySpace x = true := by
          intro x hx
          rcases List.mem_cons.mp hx with rfl | hx'
          · exact hc
          · exact List.mem_takeWhile_imp hx'
        obtain ⟨hgne, hgws⟩ := hg _ hrun hrunws
        rw [mapWsRuns_ws_append f _ _ hgne hgws
          (mapWsRuns_head_not_ws g _ (by
            intro x hx
            have := List.head?_dropWhile_not isPySpace rest
            rw [hx] at this
            simpa using this))]
        rw [ih (rest.dropWhile isPySpace) (by
          have h1 : (rest.dropWhile isPySpace).length ≤ rest.length :=
            (List.dropWhile_sublist isPySpace).length_le
          have h2 : rest.length ≤ n := by simpa using Nat.le_of_succ_le_succ hlen
          omega)]
      · rw [mapWsRuns_cons_not_ws g c rest hc,
          mapWsRuns_cons_not_ws f c _ hc,
          mapWsRuns_cons_not_ws (fun r => f (g r)) c rest hc,
          ih rest (by simpa using Nat.le_of_succ_le_succ hlen)]

theorem collapseSTAux_facts :
    ∀ (z : Str) (b : Bool),
      '\t' ∉ collapseSTAux b z ∧
      (∀ c ∈ collapseSTAux b z, c = ' ' ∨ c ∈ z) ∧
      (collapseSTAux b z).Chain' (fun c d => ¬(isST c = true ∧ isST d = true)) := by
  intro z
  induction z with
  | nil => intro b; refine ⟨by simp [collapseSTAux], by simp [collapseSTAux], ?_⟩
           simp [collapseSTAux]
  | cons c rest ih =>
    intro b
    by_cases hc : isST c
    · cases b with
      | true =>
        rw [show collapseSTAux true (c :: rest) = collapseSTAux true rest from by
          simp [collapseSTAux, hc]]
        obtain ⟨h1, h2, h3⟩ := ih true
        exact ⟨h1, fun x hx => (h2 x hx).imp id (List.mem_cons_of_mem c), h3⟩
      | false =>
        rw [show collapseSTAux false (c :: rest) = ' ' :: collapseSTAux true rest
          from by simp [collapseSTAux, hc]]
        obtain ⟨h1, h2, h3⟩ := ih true
        refine ⟨?_, ?_, ?_⟩
        · intro hm
          rcases List.mem_cons.mp hm with h | h
          · cases h
          · exact h1 h
        · intro x hx
          rcases List.mem_cons.mp hx with rfl | hx'
          · exact Or.inl rfl
          · exact (h2 x hx').imp id (List.mem_cons_of_mem c)
        · rw [List.chain'_cons']
          refine ⟨?_, h3⟩
          intro y hy
          rintro ⟨_, hy'⟩
          rw [collapseSTAux_true_head rest y hy] at hy'
          cases hy'
    · rw [show collapseSTAux b (c :: rest) = c :: collapseSTAux false rest from by
        simp [collapseSTAux, hc]]
      obtain ⟨h1, h2, h3⟩ := ih false
      refine ⟨?_, ?_, ?_⟩
      · intro hm
        rcases List.mem_cons.mp hm with h | h
        · rw [← h] at hc
          exact hc (by decide)
        · exact h1 h
      · intro x hx
        rcases List.mem_cons.mp hx with rfl | hx'
        · exact Or.inr (List.mem_cons_self _ _)
        · exact (h2 x hx').imp id (List.mem_cons_of_mem c)
      · rw [List.chain'_cons']
        refine ⟨?_, h3⟩
        intro y _
        rintro ⟨hc', _⟩
        exact hc hc'

theorem subWsNlRun_props (r : Str) :
    subWsNlRun r ≠ [] ↔ r ≠ [] := by
  unfold subWsNlRun
  by_cases h : '\n' ∈ r
  · rw [if_pos h]
    simp
    exact fun hr => by rw [hr] at h; cases h
  · rw [if_neg h]

theorem mem_subWsNlRun (r : Str) :
    ∀ c ∈ subWsNlRun r, c = '\n' ∨ c ∈ r := by
  unfold subWsNlRun
  by_cases h : '\n' ∈ r
  · rw [if_pos h]
    intro c hc
    rcases List.mem_cons.mp hc with rfl | hc'
    · exact Or.inl rfl
    · refine Or.inr ?_
      have := List.mem_reverse.mp hc'
      have h2 := List.takeWhile_subset (fun c => decide (c ≠ '\n')) this
      exact List.mem_reverse.mp h2
  · rw [if_neg h]
    intro c hc
    exact Or.inr hc

theorem g2_run (r : Str) :
    subNlWsRun (subWsNlRun r) = if '\n' ∈ r then ['\n'] else r := by
  by_cases h : '\n' ∈ r
  · rw [if_pos h]
    rw [show subWsNlRun r =
      '\n' :: (r.reverse.takeWhile (fun c => c ≠ '\n')).reverse from by
        unfold subWsNlRun
        rw [if_pos h]]
    unfold subNlWsRun
    rw [if_pos (List.mem_cons_self _ _)]
    rw [List.takeWhile_cons_of_neg (by simp)]
    rfl
  · rw [if_neg h]
    rw [show subWsNlRun r = r from by unfold subWsNlRun; rw [if_neg h]]
    unfold subNlWsRun
    rw [if_neg h]

theorem g2_props (r : Str) (hne : r ≠ []) (hws : ∀ c ∈ r, isPySpace c = true) :
    subNlWsRun (subWsNlRun r) ≠ [] ∧
    ∀ c ∈ subNlWsRun (subWsNlRun r), isPySpace c = true := by
  rw [g2_run r]
  by_cases h : '\n' ∈ r
  · rw [if_pos h]
    exact ⟨by simp, by intro c hc; rcases List.mem_singleton.mp hc with rfl; rfl⟩
  · rw [if_neg h]
    exact ⟨hne, hws⟩

theorem mapWsRuns_mem (g : Str → Str)
    (hg : ∀ (r : Str) (x : Char), r ≠ [] → (∀ c ∈ r, isPySpace c = true) →
      x ∈ g r → x = '\n' ∨ x ∈ r) :
    ∀ (z : Str) (x : Char), x ∈ mapWsRuns g z → x = '\n' ∨ x ∈ z := by
  suffices h : ∀ (n : Nat) (z : Str), z.length ≤ n → ∀ x, x ∈ mapWsRuns g z →
      x = '\n' ∨ x ∈ z by
    intro z x hx
    exact h z.length z (Nat.le_refl _) x hx
  intro n
  induction n with
  | zero =>
    intro z hlen x hx
    rw [List.length_eq_zero.mp (Nat.le_zero.mp hlen)] at hx
    cases hx
  | succ n ih =>
    intro z hlen x hx
    cases z with
    | nil => cases hx
    | cons c rest =>
      by_cases hc : isPySpace c
      · rw [mapWsRuns_cons_ws g c rest hc] at hx
        rcases List.mem_append.mp hx with hx' | hx'
        · have := hg (c :: rest.takeWhile isPySpace) x (by simp)
            (by
              intro y hy
              rcases List.mem_cons.mp hy with rfl | hy'
              · exact hc
              · exact List.mem_takeWhile_imp hy') hx'
          rcases this with h | h
          · exact Or.inl h
          · rcases List.mem_cons.mp h with rfl | h'
            · exact Or.inr (List.mem_cons_self x rest)
            · exact Or.inr (List.mem_cons_of_mem c
                (List.takeWhile_subset isPySpace h'))
        · have := ih (rest.dropWhile isPySpace)
            (by
              have h1 : (rest.dropWhile isPySpace).length ≤ rest.length :=
                (List.dropWhile_sublist isPySpace).length_le
              have h2 : rest.length ≤ n := by
                simpa using Nat.le_of_succ_le_succ hlen
              omega) x hx'
          rcases this with h | h
          · exact Or.inl h
          · exact Or.inr (List.mem_cons_of_mem c
              (List.dropWhile_subset isPySpace h))
      · rw [mapWsRuns_cons_not_ws g c rest hc] at hx
        rcases List.mem_cons.mp hx with rfl | hx'
        · exact Or.inr (List.mem_cons_self x rest)
        · rcases ih rest (by simpa using Nat.le_of_succ_le_succ hlen) x hx' with h | h
          · exact Or.inl h
          · exact Or.inr (List.mem_cons_of_mem c h)

theorem chain'_of_stok_no_newline :
    ∀ r : Str, (∀ c ∈ r, isPySpace c = true) →
      r.Chain' (fun c d => ¬(isST c = true ∧ isST d = true)) →
      '\n' ∉ r → r.Chain' wsChainOk := by
  intro r
  induction r with
  | nil => intro _ _ _; exact List.chain'_nil
  | cons c t ih =>
    intro hws hch hn
    cases t with
    | nil => exact List.chain'_singleton c
    | cons d t' =>
      obtain ⟨hcd, hch'⟩ := List.chain'_cons.mp hch
      rw [List.chain'_cons]
      refine ⟨⟨hcd, ?_, ?_⟩, ih (fun x hx => hws x (List.mem_cons_of_mem c hx))
        hch' (fun hm => hn (List.mem_cons_of_mem c hm))⟩
      · rintro ⟨_, hd⟩
        exact hn (hd ▸ List.mem_cons_of_mem c (List.mem_cons_self d t'))
      · rintro ⟨hc, _⟩
        exact hn (hc ▸ List.mem_cons_self c (d :: t'))

theorem g2_chain (r : Str) (hws : ∀ c ∈ r, isPySpace c = true)
    (hst : r.Chain' (fun c d => ¬(isST c = true ∧ isST d = true))) :
    (subNlWsRun (subWsNlRun r)).Chain' wsChainOk := by
  rw [g2_run r]
  by_cases h : '\n' ∈ r
  · rw [if_pos h]
    exact List.chain'_singleton _
  · rw [if_neg h]
    exact chain'_of_stok_no_newline r hws hst h

theorem chain'_mapWsRuns (g : Str → Str)
    (hg : ∀ r : Str, r ≠ [] → (∀ c ∈ r, isPySpace c = true) →
      r.Chain' (fun c d => ¬(isST c = true ∧ isST d = true)) →
      (g r ≠ [] ∧ (∀ c ∈ g r, isPySpace c = true) ∧ (g r).Chain' wsChainOk)) :
    ∀ z : Str, z.Chain' (fun c d => ¬(isST c = true ∧ isST d = true)) →
      (mapWsRuns g z).Chain' wsChainOk := by
  suffices h : ∀ (n : Nat) (z : Str), z.length ≤ n →
      z.Chain' (fun c d => ¬(isST c = true ∧ isST d = true)) →
      (mapWsRuns g z).Chain' wsChainOk by
    intro z hz
    exact h z.length z (Nat.le_refl _) hz
  intro n
  induction n with
  | zero =>
    intro z hlen _
    rw [List.length_eq_zero.mp (Nat.le_zero.mp hlen)]
    exact List.chain'_nil
  | succ n ih =>
    intro z hlen hch
    cases z with
    | nil => exact List.chain'_nil
    | cons c rest =>
      have hrestlen : rest.length ≤ n := by simpa using Nat.le_of_succ_le_succ hlen
      by_cases hc : isPySpace c
      · rw [mapWsRuns_cons_ws g c rest hc]
        have hrun : (c :: rest.takeWhile isPySpace) ≠ [] := by simp
        have hrunws : ∀ x ∈ c :: rest.takeWhile isPySpace, isPySpace x = true := by
          intro x hx
          rcases List.mem_cons.mp hx with rfl | hx'
          · exact hc
          · exact List.mem_takeWhile_imp hx'
        have hrunch : (c :: rest.takeWhile isPySpace).Chain'
            (fun c d => ¬(isST c = true ∧ isST d = true)) := by
          rw [show c :: rest.takeWhile isPySpace =
            (c :: rest).takeWhile isPySpace from
            (List.takeWhile_cons_of_pos hc).symm]
          exact List.Chain'.prefix hch ( List.takeWhile_prefix isPySpace)
        obtain ⟨hgne, hgws, hgch⟩ := hg _ hrun hrunws hrunch
        rw [List.chain'_append]
        refine ⟨hgch, ?_, ?_⟩
        · apply ih (rest.dropWhile isPySpace)
          · have := (List.dropWhile_sublist isPySpace (l := rest)).length_le
            omega
          · exact List.Chain'.suffix hch
              (List.IsSuffix.trans (List.dropWhile_suffix isPySpace)
                (List.suffix_cons c rest))
        · intro x _ y hy
          refine wsChainOk_of_right ?_
          exact mapWsRuns_head_not_ws g _ (by
            intro w hw
            have := List.head?_dropWhile_not isPySpace rest
            rw [hw] at this
            simpa using this) y hy
      · rw [mapWsRuns_cons_not_ws g c rest hc]
        rw [List.chain'_cons']
        refine ⟨?_, ih rest hrestlen (List.Chain'.tail hch)⟩
        intro y _
        exact wsChainOk_of_left (by simpa using hc)

theorem mem_pyStrip (s : Str) : ∀ c ∈ pyStrip s, c ∈ s := by
  intro c hc
  unfold pyStrip at hc
  have h1 := List.mem_reverse.mp hc
  have h2 := List.dropWhile_subset isPySpace h1
  have h3 := List.mem_reverse.mp h2
  exact List.dropWhile_subset isPySpace h3

theorem getLast?_suffix_ne_nil {l u v : Str} (huv : u ++ v = l) (hv : v ≠ []) :
    l.getLast? = v.getLast? := by
  subst huv
  rw [List.getLast?_append]
  cases v with
  | nil => cases hv rfl
  | cons d ds =>
    cases hvl : (d :: ds).getLast? with
    | none =>
      have : d :: ds = [] := by
        simpa using List.getLast?_eq_none_iff.mp hvl
      cases this
    | some e => rfl

theorem pyStrip_head_not_ws (s : Str) :
    ∀ c, (pyStrip s).head? = some c → isPySpace c = false := by
  intro c hc
  unfold pyStrip at hc
  rw [List.head?_reverse] at hc
  have hne : ((s.dropWhile isPySpace).reverse).dropWhile isPySpace ≠ [] := by
    intro h0
    rw [h0] at hc
    cases hc
  obtain ⟨u, hu⟩ := List.dropWhile_suffix (l := (s.dropWhile isPySpace).reverse)
    (p := isPySpace)
  have hlast : ((s.dropWhile isPySpace).reverse).getLast? = some c := by
    rw [getLast?_suffix_ne_nil hu hne]
    exact hc
  rw [List.getLast?_reverse] at hlast
  have := List.head?_dropWhile_not isPySpace s
  rw [hlast] at this
  simpa using this

theorem pyStrip_last_not_ws (s : Str) :
    ∀ c, (pyStrip s).getLast? = some c → isPySpace c = false := by
  intro c hc
  unfold pyStrip at hc
  rw [List.getLast?_reverse] at hc
  have := List.head?_dropWhile_not isPySpace ((s.dropWhile isPySpace).reverse)
  rw [hc] at this
  simpa using this

theorem chain'_wsChainOk_reverse {l : Str} (h : l.Chain' wsChainOk) :
    l.reverse.Chain' wsChainOk := by
  rw [List.chain'_reverse]
  refine List.Chain'.imp ?_ h
  intro a b hab
  exact ⟨fun hx => hab.1 ⟨hx.2, hx.1⟩, fun hx => hab.2.2 ⟨hx.2, hx.1⟩,
    fun hx => hab.2.1 ⟨hx.2, hx.1⟩⟩

theorem chain'_pyStrip {s : Str} (h : s.Chain' wsChainOk) :
    (pyStrip s).Chain' wsChainOk := by
  unfold pyStrip
  apply chain'_wsChainOk_reverse
  apply List.Chain'.suffix _ (List.dropWhile_suffix isPySpace)
  apply chain'_wsChainOk_reverse
  exact List.Chain'.suffix h (List.dropWhile_suffix isPySpace)

theorem wsNormal_wsPipeline (s : Str) : wsNormal (wsPipeline s) := by
  unfold wsPipeline subNlWs subWsNl
  have hcomp : mapWsRuns subNlWsRun (mapWsRuns subWsNlRun (collapseST (replaceNbsp s))) =
      mapWsRuns (fun r => subNlWsRun (subWsNlRun r)) (collapseST (replaceNbsp s)) :=
    mapWsRuns_comp subNlWsRun subWsNlRun
      (fun r hne hws => ⟨(subWsNlRun_props r).mpr hne,
        fun c hc => (mem_subWsNlRun r c hc).elim
          (fun h => by rw [h]; rfl) (hws c)⟩)
      (collapseST (replaceNbsp s))
  rw [hcomp]
  obtain ⟨htab1, hmem1, hst1⟩ := collapseSTAux_facts (replaceNbsp s) false
  have hnb0 : ('\xa0' : Char) ∉ replaceNbsp s := by
    intro hm
    obtain ⟨a, _, ha⟩ := List.mem_map.mp hm
    unfold nbspFix at ha
    by_cases h : a = '\xa0'
    · rw [if_pos h] at ha
      exact absurd ha (by decide)
    · rw [if_neg h] at ha
      exact h ha
  have hg2mem : ∀ (r : Str) (x : Char), r ≠ [] → (∀ c ∈ r, isPySpace c = true) →
      x ∈ subNlWsRun (subWsNlRun r) → x = '\n' ∨ x ∈ r := by
    intro r x hne hws hx
    rw [g2_run r] at hx
    by_cases h : '\n' ∈ r
    · rw [if_pos h] at hx
      exact Or.inl (List.mem_singleton.mp hx)
    · rw [if_neg h] at hx
      exact Or.inr hx
  have hmem3 : ∀ x ∈ mapWsRuns (fun r => subNlWsRun (subWsNlRun r))
      (collapseST (replaceNbsp s)), x = '\n' ∨ x ∈ collapseST (replaceNbsp s) :=
    fun x hx => mapWsRuns_mem _ hg2mem _ x hx
  have hch3 : (mapWsRuns (fun r => subNlWsRun (subWsNlRun r))
      (collapseST (replaceNbsp s))).Chain' wsChainOk :=
    chain'_mapWsRuns _
      (fun r hne hws hst =>
        ⟨(g2_props r hne hws).1, (g2_props r hne hws).2, g2_chain r hws hst⟩)
      _ hst1
  refine ⟨?_, ?_, chain'_pyStrip hch3, pyStrip_head_not_ws _, pyStrip_last_not_ws _⟩
  · intro hm
    have h1 := mem_pyStrip _ _ hm
    rcases hmem3 _ h1 with h2 | h2
    · cases h2
    · exact htab1 h2
  · intro hm
    have h1 := mem_pyStrip _ _ hm
    rcases hmem3 _ h1 with h2 | h2
    · cases h2
    · rcases hmem1 _ h2 with h3 | h3
      · cases h3
      · exact hnb0 h3

theorem wsPipeline_idem (s : Str) : wsPipeline (wsPipeline s) = wsPipeline s :=
  wsPipeline_fixpoint (wsPipeline s) (wsNormal_wsPipeline s)

/-- C4: `normalize_whitespace` is idempotent.  The two hypotheses record
the Unicode guarantees about canonical composition that live outside this
code base: `nfc` is idempotent, and a string already in composed form
stays composed when the pipeline's whitespace edits are applied (those
edits never bring a base character next to a new combining character: a
retained space, a newline, or the string boundary always separates them).
Both hold of the identity in particular, and the whitespace pipeline
itself is proved idempotent outright. -/
theorem c4_normalize_idempotent (nfc : Str → Str)
    (hidem : ∀ s, nfc (nfc s) = nfc s)
    (hpres : ∀ s, nfc s = s → nfc (wsPipeline s) = wsPipeline s)
    (x : Str) :
    normalize_whitespace nfc (normalize_whitespace nfc x) =
      normalize_whitespace nfc x := by
  unfold normalize_whitespace
  rw [hpres (nfc x) (hidem x), wsPipeline_idem]

/-- C4 witness: idempotence at a concrete mixed-whitespace string with the
identity as composition (ASCII is composition-invariant). -/
theorem c4_normalize_idempotent_witness :
    normalize_whitespace id (normalize_whitespace id
      ((" a\t b \n  c  ").data)) = normalize_whitespace id ((" a\t b \n  c  ").data) :=
  c4_normalize_idempotent id (fun _ => rfl) (fun _ _ => rfl) ((" a\t b \n  c  ").data)

end DocCompare
